import Mathlib

/-!
Verification of the lexing / parser-combinator engine in `parser.py`
(classes `StringStream`, `Lexer`, `TokenStream`, `Parser` and its node
kinds).  The Python code is shallowly embedded: source text is a
`List Char`, Python `int` is `Int` (offsets that are provably
non-negative are `Nat`), Python `re.Pattern` objects are abstract
anchored matchers `List Char → Option (List Char)` (the code compiles
every user regex with a `^(...)` anchor, so a compiled pattern is
exactly a function returning the matched prefix, if any), exceptions
become `Except` results, and the mutable streams are passed as explicit
state.  Loops whose termination depends on the grammar (token-stream
ignore skipping, the combinator recursion) take an explicit fuel
argument; `none` models non-termination or a non-`Parser.Error` crash
(e.g. a Python `IndexError`), and every theorem about an outcome is
conditioned on the computation returning `some`.
-/

/-- `Position` dataclass: 1-based line / column, Python ints. -/
structure Position where
  line : Int
  column : Int
deriving DecidableEq, Repr

/-- `StringStream`: the full input text plus the read cursor of the
underlying `StringIO`.  The text is immutable; `offset` is the only
mutable state. -/
structure StringStream where
  text : List Char
  offset : Nat
deriving Repr

/-- One step of `StringIO.readlines`: split the text into lines, each
line keeping its terminating newline (the last line may lack one).
`acc` is the reversed pending prefix of the current line. -/
def splitLinesAux : List Char → List Char → List (List Char)
  | [], acc => if acc.isEmpty then [] else [acc.reverse]
  | c :: rest, acc =>
    if c = '\n' then (acc.reverse ++ ['\n']) :: splitLinesAux rest []
    else splitLinesAux rest (c :: acc)

/-- `self.__stream.readlines()` on the constructor's text. -/
def pyReadlines (text : List Char) : List (List Char) :=
  splitLinesAux text []

/-- The constructor loop `for line in readlines()[:-1]:` appending
cumulative lengths to `[0]`.  `s` is the running start (last entry). -/
def buildStarts : List (List Char) → Nat → List Nat
  | [], s => [s]
  | l :: rest, s => s :: buildStarts rest (s + l.length)

/-- `self.__lineStarts` as computed by `StringStream.__init__`. -/
def lineStartsOf (text : List Char) : List Nat :=
  buildStarts (pyReadlines text).dropLast 0

/-- `StringStream.Peek`: read one character without consuming. -/
def StringStream.Peek (ss : StringStream) : List Char :=
  (ss.text.drop ss.offset).take 1

/-- `StringStream.Get`: `self.__stream.read(1)` — the character read
(empty at end of stream) and the advanced stream. -/
def StringStream.Get (ss : StringStream) : List Char × StringStream :=
  ((ss.text.drop ss.offset).take 1,
   { ss with offset := min (ss.offset + 1) ss.text.length })

/-- `StringStream.PeekRemainder`: rest of the text, non-consuming. -/
def StringStream.PeekRemainder (ss : StringStream) : List Char :=
  ss.text.drop ss.offset

/-- `StringStream.Ignore`: `self.__stream.read(amt)` for its side
effect only — advance by `amt`, clamped at the end of the text. -/
def StringStream.Ignore (ss : StringStream) (amt : Nat) : StringStream :=
  { ss with offset := min (ss.offset + amt) ss.text.length }

/-- `StringStream.GetOffset`. -/
def StringStream.GetOffset (ss : StringStream) : Nat :=
  ss.offset

/-- `StringStream.SetOffset`: `seek(max(0, min(offset, self.__size)))`;
takes any Python int and clamps it into `[0, size]`. -/
def StringStream.SetOffset (ss : StringStream) (o : Int) : StringStream :=
  { ss with offset := (max 0 (min o (ss.text.length : Int))).toNat }

/-- `StringStream.IsEOS`: offset equals the stored size. -/
def StringStream.IsEOS (ss : StringStream) : Bool :=
  ss.offset == ss.text.length

/-- The `GetPosition` scan over line starts: count starts not exceeding
the offset (breaking at the first larger one), remembering the closest
one.  `line`/`closest` are the loop variables. -/
def scanLineStarts : List Nat → Nat → Int → Nat → Int × Nat
  | [], _, line, closest => (line, closest)
  | ls :: rest, offset, line, closest =>
    if ls > offset then (line, closest)
    else scanLineStarts rest offset (line + 1) ls

/-- `StringStream.GetPosition`. -/
def StringStream.GetPosition (ss : StringStream) : Position :=
  let p := scanLineStarts (lineStartsOf ss.text) ss.offset 0 0
  ⟨p.1, (ss.offset : Int) - (p.2 : Int) + 1⟩

/-- Failure modes of `SetPosition`: the explicit
`raise Exception(f"Invalid position: ...")`, and a Python `IndexError`
from `self.__lineStarts[...]` (reachable for out-of-range negative
lines, which the validity check does not reject). -/
inductive StreamErr where
  | invalidPosition
  | indexError
deriving DecidableEq, Repr

/-- Python list indexing `l[i]`: negative indices count from the end;
out of range raises `IndexError`. -/
def pyIndex (l : List Nat) (i : Int) : Except StreamErr Nat :=
  if 0 ≤ i then
    match l.get? i.toNat with
    | some v => Except.ok v
    | none => Except.error StreamErr.indexError
  else if (l.length : Int) + i < 0 then Except.error StreamErr.indexError
  else
    match l.get? ((l.length : Int) + i).toNat with
    | some v => Except.ok v
    | none => Except.error StreamErr.indexError

/-- `StringStream.SetPosition`.  Note the guard tests `pos.line == 0`
and `pos.column == 0` (equality, not `≤ 0`), and the subscripts
`self.__lineStarts[pos.line - 1]` / `self.__lineStarts[pos.line]` use
Python indexing, so negative lines index from the end of the table. -/
def StringStream.SetPosition (ss : StringStream) (pos : Position) :
    Except StreamErr StringStream :=
  let lineStarts := lineStartsOf ss.text
  if pos.line > (lineStarts.length : Int) ∨ pos.line = 0 ∨ pos.column = 0 then
    Except.error StreamErr.invalidPosition
  else
    match pyIndex lineStarts (pos.line - 1) with
    | Except.error e => Except.error e
    | Except.ok lineStart =>
      match (if pos.line = (lineStarts.length : Int) then
               Except.ok ((ss.text.length : Int) - (lineStart : Int))
             else
               (pyIndex lineStarts pos.line).map
                 (fun nxt => (nxt : Int) - (lineStart : Int))) with
      | Except.error e => Except.error e
      | Except.ok lineWidth =>
        if pos.column - 1 > lineWidth then
          Except.error StreamErr.invalidPosition
        else
          Except.ok (ss.SetOffset ((lineStart : Int) + pos.column - 1))

/-- A pattern action: the Python `Callable[['Lexer', str], str]`.  The
`Lexer` parameter is dropped (every action in the repository ignores
it); the action maps the raw matched substring to the token value. -/
def LexAction : Type := Option (List Char → List Char)

/-- A compiled, anchored regular expression: `re.compile(f"^({r})")`
applied via `.search(s)` either yields the matched prefix of `s`
(group 0) or nothing.  The regex engine itself is external, so a
pattern is embedded as this abstract matcher. -/
def RegexM : Type := List Char → Option (List Char)

/-- `Lexer.Pattern`: id, compiled regex, optional action. -/
structure LexPattern where
  id : String
  regex : RegexM
  action : LexAction

/-- `Lexer.Token`. -/
structure Token where
  patternID : String
  position : Position
  value : List Char
deriving DecidableEq, Repr

def Lexer.EOS_PATTERN_ID : String := "<EOS>"

def Lexer.UNKNOWN_PATTERN_ID : String := "<UNKNOWN>"

/-- `Lexer.CreatePatternIDFromIdx`. -/
def Lexer.CreatePatternIDFromIdx (idx : Nat) : String :=
  "<Pattern: " ++ toString idx ++ ">"

/-- `Lexer`: the two sentinel actions and the ordered list of
registered user patterns. -/
structure Lexer where
  onEOS : LexAction
  onUnknown : LexAction
  patterns : List LexPattern

/-- `value if action is None else action(value)`. -/
def applyAction (a : LexAction) (v : List Char) : List Char :=
  match a with
  | none => v
  | some f => f v

/-- `Lexer.AddPattern`.  The `assert patternID not in ...` is modelled
as an `Except.error` (a fatal `AssertionError`); note it only checks
the registered user patterns — the sentinel ids are not compared. -/
def Lexer.AddPattern (lx : Lexer) (regex : RegexM) (action : LexAction)
    (id? : Option String) : Except String (Lexer × String) :=
  let patternID :=
    match id? with
    | none => Lexer.CreatePatternIDFromIdx lx.patterns.length
    | some i => i
  if patternID ∈ lx.patterns.map (fun p => p.id) then
    Except.error ("Pattern with id '" ++ patternID ++ "' already exists!")
  else
    Except.ok ({ lx with patterns := lx.patterns ++ [⟨patternID, regex, action⟩] },
               patternID)

/-- The `for pattern in self.__patterns:` selection loop of `Lexer.Lex`:
the accumulator is `(matchingPattern, matchValue, greatestPatternMatchLength)`
and a later pattern replaces it only on a strictly longer match. -/
def lexSelect : List LexPattern → List Char →
    Option LexPattern × List Char × Nat → Option LexPattern × List Char × Nat
  | [], _, acc => acc
  | p :: rest, s, (mp, mv, g) =>
    match p.regex s with
    | none => lexSelect rest s (mp, mv, g)
    | some m =>
      if mp.isNone ∨ m.length > g then lexSelect rest s (some p, m, m.length)
      else lexSelect rest s (mp, mv, g)

/-- `Lexer.Lex`: produce one token at the stream position, advancing
the stream by the raw match length.  (The `assert isinstance(value, str)`
holds by typing here.) -/
def Lexer.Lex (lx : Lexer) (ss : StringStream) : Token × StringStream :=
  let streamPos := ss.GetPosition
  if ss.IsEOS then
    (⟨Lexer.EOS_PATTERN_ID, streamPos, applyAction lx.onEOS []⟩, ss.Ignore 0)
  else
    match lexSelect lx.patterns ss.PeekRemainder (none, [], 0) with
    | (some p, mv, _) =>
      (⟨p.id, streamPos, applyAction p.action mv⟩, ss.Ignore mv.length)
    | (none, _, _) =>
      let mv := ss.Peek
      (⟨Lexer.UNKNOWN_PATTERN_ID, streamPos, applyAction lx.onUnknown mv⟩,
       ss.Ignore mv.length)

/-- Spec-side restatement of the longest-match rule, written from the
specification's words: among all patterns that produce a match, the one
with the longest matched substring wins and the earliest-registered
pattern wins exact-length ties (the maximal length is computed first,
then the first pattern achieving it is taken). -/
def specBest (ps : List LexPattern) (s : List Char) :
    Option (LexPattern × List Char) :=
  let ms := ps.filterMap (fun p => (p.regex s).map (fun m => (p, m)))
  let best := (ms.map (fun x => x.2.length)).foldl Nat.max 0
  ms.find? (fun x => x.2.length == best)

/-- `TokenStream`: a lexer over a `StringStream`, the lazily filled
token cache, the integer cursor, and the stream-level ignore set. -/
structure TokenStream where
  lexer : Lexer
  sstream : StringStream
  offset : Nat
  tokens : List Token
  ignores : List String

/-- `TokenStream.__init__` (the `assert EOS not in ignores` is a
construction-time contract; states violating it are simply never built
by the theorems below). -/
def TokenStream.mk' (lexer : Lexer) (text : List Char)
    (ignores : List String) : TokenStream :=
  ⟨lexer, ⟨text, 0⟩, 0, [], ignores⟩

/-- `TokenStream.IsEOS`: the cache is non-empty and its last token is
the EOS sentinel.  Note this inspects the cache, not the cursor. -/
def TokenStream.IsEOS (ts : TokenStream) : Bool :=
  match ts.tokens.getLast? with
  | some t => t.patternID == Lexer.EOS_PATTERN_ID
  | none => false

/-- One iteration of the lazy-lexing loop body: lex one token from the
source stream and append it to the cache. -/
def appendLex (ts : TokenStream) : TokenStream :=
  let r := ts.lexer.Lex ts.sstream
  { ts with sstream := r.2, tokens := ts.tokens ++ [r.1] }

/-- The inner loop of `TokenStream.Get`:
`while len(self.__tokens) <= self.__offset and not self.IsEOS(): append`.
Each iteration appends exactly one token, so `offset + 1 - |tokens|`
iterations always suffice; running the loop with exactly that budget is
therefore equivalent to running it to completion. -/
def fillAux : Nat → TokenStream → TokenStream
  | 0, ts => ts
  | f + 1, ts =>
    if ts.tokens.length ≤ ts.offset ∧ ¬ ts.IsEOS then fillAux f (appendLex ts)
    else ts

def fillTokens (ts : TokenStream) : TokenStream :=
  fillAux (ts.offset + 1 - ts.tokens.length) ts

/-- `TokenStream.Get`.  The fuel bounds the outer
ignore-skipping loop, which Python runs unboundedly (it can genuinely
diverge, e.g. on an ignored zero-length pattern); `none` also models
the `IndexError` of `self.__tokens[self.__offset]` on a cursor past a
fully-lexed cache (unreachable from constructed streams).  After
returning the token at the cursor the cursor is set to
`len(tokens) - 1` whenever the cache already ends in the EOS token, and
to `offset + 1` otherwise. -/
def TokenStream.Get : Nat → TokenStream → Option (Token × TokenStream)
  | 0, _ => none
  | n + 1, ts =>
    let ts1 := fillTokens ts
    match ts1.tokens.get? ts1.offset with
    | none => none
    | some token =>
      let ts2 := { ts1 with
        offset := if ts1.IsEOS then ts1.tokens.length - 1 else ts1.offset + 1 }
      if token.patternID ∈ ts2.ignores then TokenStream.Get n ts2
      else some (token, ts2)

/-- `TokenStream.Peek`: `Get` with the cursor restored (the cache
growth persists). -/
def TokenStream.Peek (n : Nat) (ts : TokenStream) :
    Option (Token × TokenStream) :=
  (TokenStream.Get n ts).map (fun r => (r.1, { r.2 with offset := ts.offset }))

/-- `TokenStream.GetOffset`. -/
def TokenStream.GetOffset (ts : TokenStream) : Nat :=
  ts.offset

/-- `TokenStream.SetOffset`: clamp into `[0, len(tokens) - 1]`
(Python semantics: with an empty cache `len - 1` is `-1`, so the
result clamps to `0`). -/
def TokenStream.SetOffset (ts : TokenStream) (o : Int) : TokenStream :=
  { ts with offset := (max 0 (min o ((ts.tokens.length : Int) - 1))).toNat }

/-- `TokenStream.GetPosition`: `self.Peek().position`; the peek can
grow the cache, so the (possibly updated) stream is returned too. -/
def TokenStream.GetPosition (n : Nat) (ts : TokenStream) :
    Option (Position × TokenStream) :=
  (TokenStream.Peek n ts).map (fun r => (r.1.position, r.2))

/-- Dynamic (duck-typed) parse values.  `vstr` is a token's string
value, `vlist` a Python list, `vresult` a `Parser.Result` object used
as a value (Sequence and Quantified return lists of `Result`s), and
`vtagged` the `(name, value)` tuple produced by a tagging Choice.
User transformers may of course produce anything; claims in this file
only involve these shapes. -/
inductive Value where
  | vstr : List Char → Value
  | vlist : List Value → Value
  | vresult : Position → Value → Value
  | vtagged : String → Value → Value
deriving Repr

/-- `Parser.Result`. -/
structure PResult where
  pos : Position
  val : Value
deriving Repr

/-- `Parser.Error`: a position and a message string. -/
structure PError where
  pos : Position
  msg : String
deriving Repr

def positionStr (p : Position) : String :=
  "(" ++ toString p.line ++ ", " ++ toString p.column ++ ")"

/-- `Parser.Error.__str__`. -/
def PError.str (e : PError) : String :=
  "Error @ " ++ positionStr e.pos ++ ": " ++ e.msg

/-- `Parser.Error.Combine`. -/
def PError.Combine (e1 e2 : PError) : PError :=
  ⟨e1.pos, e1.msg ++ "\n" ++ e2.str⟩

/-- `Parser.Error.Expectation`. -/
def PError.Expectation (expected found : String) (pos : Position) : PError :=
  ⟨pos, "Expected " ++ expected ++ ", but found " ++ found⟩

/-- A user transformer (`None` means the identity default). -/
def Transformer : Type := Option (Value → Value)

def applyTransformer (t : Transformer) (v : Value) : Value :=
  match t with
  | none => v
  | some f => f v

/-- The parser-node algebra: `Terminal`, `Sequence`, `Choice`,
`Quantified` and `Separated`, each carrying its name, transformer and
parser-level ignore set as in the Python constructors.  `Lazy` is a
thunk producing an arbitrary parser at parse time and has no claim
about it; it is not embedded (embedding it would require general
recursion through a function space). -/
inductive PNode where
  | terminal : String → String → Option (List Char) → Transformer →
      List String → PNode
  | sequence : String → List PNode → Transformer → List String → PNode
  | choice : String → List PNode → Bool → Transformer → List String → PNode
  | quantified : String → PNode → Nat → Option Nat → Transformer →
      List String → PNode
  | separated : String → PNode → PNode → Transformer → List String → PNode

def PNode.name : PNode → String
  | .terminal n _ _ _ _ => n
  | .sequence n _ _ _ => n
  | .choice n _ _ _ _ => n
  | .quantified n _ _ _ _ _ => n
  | .separated n _ _ _ _ => n

def PNode.trans : PNode → Transformer
  | .terminal _ _ _ t _ => t
  | .sequence _ _ t _ => t
  | .choice _ _ _ t _ => t
  | .quantified _ _ _ _ t _ => t
  | .separated _ _ _ t _ => t

def PNode.ignores : PNode → List String
  | .terminal _ _ _ _ i => i
  | .sequence _ _ _ i => i
  | .choice _ _ _ _ i => i
  | .quantified _ _ _ _ _ i => i
  | .separated _ _ _ _ i => i

/-- The `lambda result: result[1]` transformer of `Separated`'s
`appendage` sequence: project the second `Result` of the pair list
(the shape is guaranteed by construction; other shapes would be a
Python `TypeError` and are mapped to a junk value). -/
def sepAppendageTrans : Value → Value
  | .vlist (_ :: r :: _) => r
  | _ => .vstr []

/-- The `lambda result: [res.value for res in result]` transformer of
`Separated`'s `tail` quantifier. -/
def sepTailTrans : Value → Value
  | .vlist l => .vlist (l.map (fun x => match x with
      | .vresult _ v => v
      | other => other))
  | v => v

/-- The `lambda result: [result[0]] + result[1].value` transformer of
`Separated`'s composed parser. -/
def sepMainTrans : Value → Value
  | .vlist (x0 :: x1 :: _) =>
    match x1 with
    | .vresult _ (.vlist es) => .vlist (x0 :: es)
    | _ => .vstr []
  | _ => .vstr []

/-- The parser `Separated.__init__` composes:
`Sequence(name, [value, Quantified.AtLeast0(name, Sequence(name, [sep, value]))])`
with the three transformers above. -/
def Separated.innerParser (name : String) (value sep : PNode)
    (ignores : List String) : PNode :=
  let appendage := PNode.sequence name [sep, value] (some sepAppendageTrans) ignores
  let tail := PNode.quantified name appendage 0 none (some sepTailTrans) ignores
  PNode.sequence name [value, tail] (some sepMainTrans) ignores

/-- The `while stream.Peek().patternID in self.__ignores: stream.Get()`
loop at the head of `Parser.parse` (fuel-bounded like `Get`). -/
def skipIgnores : Nat → List String → TokenStream → Option TokenStream
  | 0, _, _ => none
  | n + 1, igns, ts =>
    match TokenStream.Peek n ts with
    | none => none
    | some (t, ts1) =>
      if t.patternID ∈ igns then
        match TokenStream.Get n ts1 with
        | none => none
        | some (_, ts2) => skipIgnores n igns ts2
      else some ts1

mutual

/-- `Parser.parse`: record the start cursor, skip the node's ignored
patterns, run `_parse` at the peeked position, apply the transformer on
success; on a `Parser.Error`, restore the cursor and re-raise the error
combined under an "Unable to parse name" header positioned at the
restored cursor.  The propagated `TokenStream` is the state the shared
mutable stream is left in (errors travel with the mutated stream). -/
def Parser.parse : Nat → PNode → TokenStream →
    Option (Except PError PResult × TokenStream)
  | 0, _, _ => none
  | n + 1, node, ts =>
    let startOffset := ts.offset
    match skipIgnores n node.ignores ts with
    | none => none
    | some ts1 =>
      match TokenStream.GetPosition n ts1 with
      | none => none
      | some (startPos, ts2) =>
        match Parser.parseInner n node startPos ts2 with
        | none => none
        | some (Except.ok r, ts3) =>
          some (Except.ok ⟨r.pos, applyTransformer node.trans r.val⟩, ts3)
        | some (Except.error e, ts3) =>
          let ts4 := ts3.SetOffset (startOffset : Int)
          match TokenStream.GetPosition n ts4 with
          | none => none
          | some (pos, ts5) =>
            some (Except.error
              (PError.Combine ⟨pos, "Unable to parse " ++ node.name⟩ e), ts5)

/-- The `_parse` methods of the five embedded node kinds. -/
def Parser.parseInner : Nat → PNode → Position → TokenStream →
    Option (Except PError PResult × TokenStream)
  | 0, _, _, _ => none
  | n + 1, node, start, ts =>
    match node with
    | .terminal _ patternID value? _ _ =>
      match TokenStream.Get n ts with
      | none => none
      | some (token, ts1) =>
        if token.patternID ≠ patternID then
          let expected := match value? with
            | some v => patternID ++ "(" ++ String.mk v ++ ")"
            | none => ""
          let found := token.patternID ++
            (if token.value ≠ [] then "(" ++ String.mk token.value ++ ")" else "")
          some (Except.error (PError.Expectation expected found token.position), ts1)
        else
          match value? with
          | some v =>
            if token.value ≠ v then
              some (Except.error
                (PError.Expectation (String.mk v) (String.mk token.value)
                  token.position), ts1)
            else some (Except.ok ⟨token.position, .vstr token.value⟩, ts1)
          | none => some (Except.ok ⟨token.position, .vstr token.value⟩, ts1)
    | .sequence _ children _ _ =>
      match Parser.parseSeq n children ts [] with
      | none => none
      | some (Except.error e, ts1) => some (Except.error e, ts1)
      | some (Except.ok rs, ts1) =>
        some (Except.ok ⟨((rs.head?).map (fun r => r.pos)).getD start,
          .vlist (rs.map (fun r => .vresult r.pos r.val))⟩, ts1)
    | .choice _ children tag _ _ =>
      Parser.parseChoice n children tag
        ⟨start, "Expected one of [" ++
          String.intercalate ", " (children.map PNode.name) ++ "]"⟩ ts
    | .quantified _ child minimum maximum _ _ =>
      match Parser.parseQuant n child minimum maximum [] ts with
      | none => none
      | some (Except.error e, ts1) => some (Except.error e, ts1)
      | some (Except.ok rs, ts1) =>
        some (Except.ok ⟨((rs.head?).map (fun r => r.pos)).getD start,
          .vlist (rs.map (fun r => .vresult r.pos r.val))⟩, ts1)
    | .separated name value sep _ igns =>
      match Parser.parse n (Separated.innerParser name value sep igns) ts with
      | none => none
      | some (Except.ok r, ts1) => some (Except.ok r, ts1)
      | some (Except.error _, ts1) => some (Except.ok ⟨start, .vlist []⟩, ts1)

/-- `Sequence._parse`'s loop: run each child in order, accumulating
`Result`s; the first child failure propagates. -/
def Parser.parseSeq : Nat → List PNode → TokenStream → List PResult →
    Option (Except PError (List PResult) × TokenStream)
  | 0, _, _, _ => none
  | _ + 1, [], ts, acc => some (Except.ok acc, ts)
  | n + 1, c :: rest, ts, acc =>
    match Parser.parse n c ts with
    | none => none
    | some (Except.error e, ts1) => some (Except.error e, ts1)
    | some (Except.ok r, ts1) => Parser.parseSeq n rest ts1 (acc ++ [r])

/-- `Choice._parse`'s loop: try alternatives in order on the shared
stream, returning the first success (tagged with the winner's name if
`tag`); when all fail, raise the prebuilt "Expected one of" error. -/
def Parser.parseChoice : Nat → List PNode → Bool → PError → TokenStream →
    Option (Except PError PResult × TokenStream)
  | 0, _, _, _, _ => none
  | _ + 1, [], _, failErr, ts => some (Except.error failErr, ts)
  | n + 1, c :: rest, tag, failErr, ts =>
    match Parser.parse n c ts with
    | none => none
    | some (Except.ok r, ts1) =>
      some (Except.ok (if tag then ⟨r.pos, .vtagged c.name r.val⟩ else r), ts1)
    | some (Except.error _, ts1) => Parser.parseChoice n rest tag failErr ts1

/-- `Quantified._parse`'s loop: repeat the child while below the
maximum; on a child failure with fewer than `minimum` collected
results, raise the combined "at least N" expectation (positioned at the
post-failure cursor), otherwise stop and succeed with the accumulated
results. -/
def Parser.parseQuant : Nat → PNode → Nat → Option Nat → List PResult →
    TokenStream → Option (Except PError (List PResult) × TokenStream)
  | 0, _, _, _, _, _ => none
  | n + 1, child, minimum, maximum, acc, ts =>
    if (match maximum with | none => true | some m => acc.length < m : Bool) then
      match Parser.parse n child ts with
      | none => none
      | some (Except.ok r, ts1) =>
        Parser.parseQuant n child minimum maximum (acc ++ [r]) ts1
      | some (Except.error e, ts1) =>
        if acc.length < minimum then
          match TokenStream.GetPosition n ts1 with
          | none => none
          | some (pos, ts2) =>
            some (Except.error (PError.Combine
              (PError.Expectation
                ("at least " ++ toString minimum ++ " '" ++ child.name ++ "'")
                ("only " ++ toString acc.length) pos) e), ts2)
        else some (Except.ok acc, ts1)
    else some (Except.ok acc, ts)

end

/-- Specification-side iteration of a single sub-parser: run it
repeatedly (with the same fuel accounting as `parseQuant`) until it
fails, returning the successful results, the stream after the last
success, the failure, the stream after the failed attempt and the fuel
index at the failure (used to line up the position peek). -/
def repsOf : Nat → PNode → TokenStream →
    Option (List PResult × TokenStream × PError × TokenStream × Nat)
  | 0, _, _ => none
  | n + 1, c, ts =>
    match Parser.parse n c ts with
    | none => none
    | some (Except.error e, tsf) => some ([], ts, e, tsf, n)
    | some (Except.ok r, ts1) =>
      match repsOf n c ts1 with
      | none => none
      | some (rs, tsk, e, tsf, k) => some (r :: rs, tsk, e, tsf, k)

def strChars (s : String) : List Char := s.data

/-- Concatenating the readlines split recovers the text. -/
theorem splitLinesAux_join (t : List Char) :
    ∀ acc, (splitLinesAux t acc).flatten = acc.reverse ++ t := by
  induction t with
  | nil =>
    intro acc
    by_cases h : acc.isEmpty
    · have : acc = [] := List.isEmpty_iff.mp h
      subst this
      simp [splitLinesAux]
    · simp [splitLinesAux, h]
  | cons c rest ih =>
    intro acc
    by_cases h : c = '\n'
    · simp [splitLinesAux, h, ih]
    · simpa [splitLinesAux, h] using ih (c :: acc)

theorem pyReadlines_join (t : List Char) : (pyReadlines t).flatten = t := by
  simpa using splitLinesAux_join t []

theorem buildStarts_mem_le (ls : List (List Char)) :
    ∀ s x, x ∈ buildStarts ls s → x ≤ s + (ls.map List.length).sum := by
  induction ls with
  | nil => intro s x hx; simp [buildStarts] at hx; omega
  | cons l rest ih =>
    intro s x hx
    simp only [buildStarts, List.mem_cons] at hx
    rcases hx with rfl | hx
    · simp only [List.map_cons, List.sum_cons]
      omega
    · have := ih (s + l.length) x hx
      simp only [List.map_cons, List.sum_cons] at *
      omega

theorem sum_map_dropLast_le (ls : List (List Char)) :
    (ls.dropLast.map List.length).sum ≤ (ls.map List.length).sum := by
  induction ls with
  | nil => simp
  | cons l rest ih =>
    cases rest with
    | nil => simp
    | cons m rest' =>
      have hdl : (l :: m :: rest').dropLast = l :: (m :: rest').dropLast := by
        simp [List.dropLast_cons_of_ne_nil]
      rw [hdl]
      simp only [List.map_cons, List.sum_cons] at ih ⊢
      omega

/-- Every cached line start lies inside the text. -/
theorem lineStarts_le_length (text : List Char) :
    ∀ x ∈ lineStartsOf text, x ≤ text.length := by
  intro x hx
  have h1 := buildStarts_mem_le (pyReadlines text).dropLast 0 x hx
  have h2 := sum_map_dropLast_le (pyReadlines text)
  have h3 : ((pyReadlines text).map List.length).sum = text.length := by
    have := pyReadlines_join text
    calc ((pyReadlines text).map List.length).sum
        = (pyReadlines text).flatten.length := (List.length_flatten _).symm
      _ = text.length := by rw [this]
  omega

/-- Claim C9: `StringStream.SetOffset` is total (it cannot fail — any
Python int argument is clamped into `[0, size]`), reading operations
keep the offset within `[0, size]`, a position seek that succeeds does
too, and `IsEOS` holds exactly when the offset equals the text
length. -/
theorem claim_C9_stream_offset_invariant (ss : StringStream) :
    (∀ o : Int, (ss.SetOffset o).offset ≤ ss.text.length) ∧
    (∀ o : Int, 0 ≤ o → o ≤ (ss.text.length : Int) →
      ((ss.SetOffset o).offset : Int) = o) ∧
    ss.Get.2.offset ≤ ss.text.length ∧
    (∀ amt, (ss.Ignore amt).offset ≤ ss.text.length) ∧
    (ss.IsEOS = true ↔ ss.offset = ss.text.length) ∧
    (∀ pos ss', ss.SetPosition pos = Except.ok ss' →
      ss'.text = ss.text ∧ ss'.offset ≤ ss'.text.length) := by
  refine ⟨fun o => ?_, fun o h0 h1 => ?_, ?_, fun amt => ?_, ?_, fun pos ss' h => ?_⟩
  · simp only [StringStream.SetOffset]
    omega
  · simp only [StringStream.SetOffset]
    omega
  · simp only [StringStream.Get]
    omega
  · simp only [StringStream.Ignore]
    omega
  · simp only [StringStream.IsEOS, beq_iff_eq]
  · simp only [StringStream.SetPosition] at h
    split at h
    · cases h
    · split at h
      · cases h
      · rename_i lineStart _
        split at h
        · cases h
        · split at h
          · cases h
          · rename_i lineWidth _
            simp only [Except.ok.injEq] at h
            subst h
            refine ⟨rfl, ?_⟩
            simp only [StringStream.SetOffset]
            omega

/-- Claim C9 witness at a concrete stream. -/
theorem claim_C9_witness :
    ((StringStream.SetOffset ⟨strChars "ab", 1⟩ 99).offset ≤ 2) ∧
    (((StringStream.SetOffset ⟨strChars "ab", 1⟩ 2).offset : Int) = 2) := by
  have h := claim_C9_stream_offset_invariant ⟨strChars "ab", 1⟩
  exact ⟨h.1 99, h.2.1 2 (by decide) (by decide)⟩

/-- A matcher that never matches (used only to build concrete lexers in
witnesses; any matcher works for `AddPattern`, which never runs it). -/
def nullRegex : RegexM := fun _ => none

/-- Claim C6 counterexample: registering a pattern under the reserved
end-of-stream sentinel id `"<EOS>"` does NOT fail — `AddPattern` only
asserts that the id is not among the already-registered user patterns,
and the sentinel patterns are stored outside that list.  The claim says
this must fail fast; the code accepts it. -/
theorem claim_C6_counterexample :
    Lexer.AddPattern ⟨none, none, []⟩ nullRegex none (some Lexer.EOS_PATTERN_ID) =
      Except.ok (⟨none, none, [⟨Lexer.EOS_PATTERN_ID, nullRegex, none⟩]⟩,
        Lexer.EOS_PATTERN_ID) := rfl

/-- Claim C6 (amended): `AddPattern` assigns the synthetic sequential
id `"<Pattern: n>"` when none is given, and fails (assertion) exactly
when the chosen id — given or synthetic — already exists among the
registered patterns; the two reserved sentinel ids are NOT checked and
may be reused.  Otherwise the pattern is appended and its id
returned. -/
theorem claim_C6_addpattern_amended (lx : Lexer) (regex : RegexM)
    (action : LexAction) (id? : Option String) :
    ((∃ msg, lx.AddPattern regex action id? = Except.error msg) ↔
      (match id? with
       | none => Lexer.CreatePatternIDFromIdx lx.patterns.length
       | some i => i) ∈ lx.patterns.map (fun p => p.id)) ∧
    (∀ pid, id? = some pid → pid ∉ lx.patterns.map (fun p => p.id) →
      lx.AddPattern regex action id? =
        Except.ok ({ lx with patterns := lx.patterns ++ [⟨pid, regex, action⟩] }, pid)) ∧
    (id? = none →
      Lexer.CreatePatternIDFromIdx lx.patterns.length ∉ lx.patterns.map (fun p => p.id) →
      lx.AddPattern regex action id? =
        Except.ok ({ lx with patterns :=
            lx.patterns ++ [⟨Lexer.CreatePatternIDFromIdx lx.patterns.length, regex, action⟩] },
          Lexer.CreatePatternIDFromIdx lx.patterns.length)) := by
  refine ⟨?_, ?_, ?_⟩
  · constructor
    · rintro ⟨msg, hmsg⟩
      simp only [Lexer.AddPattern] at hmsg
      split at hmsg
      · rename_i hmem
        cases id? <;> simpa using hmem
      · cases hmsg
    · intro hmem
      refine ⟨"Pattern with id '" ++
        (match id? with
         | none => Lexer.CreatePatternIDFromIdx lx.patterns.length
         | some i => i) ++ "' already exists!", ?_⟩
      simp only [Lexer.AddPattern]
      split
      · cases id? <;> rfl
      · rename_i hnmem
        exact absurd (by cases id? <;> simpa using hmem) hnmem
  · rintro pid rfl hnmem
    simp only [Lexer.AddPattern]
    split
    · rename_i hmem
      exact absurd (by simpa using hmem) hnmem
    · rfl
  · rintro rfl hnmem
    simp only [Lexer.AddPattern]
    split
    · rename_i hmem
      exact absurd (by simpa using hmem) hnmem
    · rfl

def witnessLexer6 : Lexer := ⟨none, none, [⟨"X", nullRegex, none⟩]⟩

/-- Claim C6 witness: adding a fresh id to a one-pattern lexer
succeeds and returns that id. -/
theorem claim_C6_witness :
    Lexer.AddPattern witnessLexer6 nullRegex none (some "Y") =
      Except.ok ({ witnessLexer6 with
        patterns := witnessLexer6.patterns ++ [⟨"Y", nullRegex, none⟩] }, "Y") :=
  (claim_C6_addpattern_amended witnessLexer6 nullRegex none (some "Y")).2.1
    "Y" rfl (by decide)

/-- Claim C5 counterexample: on the text `"a\nb"`, `setPosition` with
the non-positive line `-1` (column 1) does not fail at all — the guard
only rejects `line == 0`, and `lineStarts[-2]` resolves by Python
negative indexing to the first line — the call succeeds and seeks to
offset 0, contradicting the claimed "fails iff ... line or column is
non-positive". -/
theorem claim_C5_counterexample :
    StringStream.SetPosition ⟨strChars "a\nb", 0⟩ ⟨-1, 1⟩ =
      Except.ok ⟨strChars "a\nb", 0⟩ := rfl

/-- The line start the code reads for a (1-based) line number `line`
with `1 ≤ line ≤ number of line starts`. -/
def lineStartAt (text : List Char) (line : Nat) : Nat :=
  (lineStartsOf text).getD (line - 1) 0

/-- The line width the code computes for such a line: distance to the
next line start, or to the end of the text for the last line. -/
def lineWidthAt (text : List Char) (line : Nat) : Int :=
  if line = (lineStartsOf text).length then
    (text.length : Int) - (lineStartAt text line : Int)
  else ((lineStartsOf text).getD line 0 : Int) - (lineStartAt text line : Int)

theorem pyIndex_of_nonneg (l : List Nat) (i : Int) (h0 : 0 ≤ i)
    (hlt : i.toNat < l.length) : pyIndex l i = Except.ok (l.getD i.toNat 0) := by
  simp only [pyIndex, if_pos h0]
  have : l.get? i.toNat = some l[i.toNat] := List.get?_eq_get hlt
  rw [this]
  simp [List.getD_eq_getElem?_getD, List.getElem?_eq_getElem hlt]

/-- Full characterization of `SetPosition` for positive line numbers
(shared by the claims below). -/
theorem setPosition_characterization (ss : StringStream) (pos : Position)
    (hline : 1 ≤ pos.line) :
    (ss.SetPosition pos = Except.error StreamErr.invalidPosition ↔
      ((lineStartsOf ss.text).length : Int) < pos.line ∨ pos.column = 0 ∨
        lineWidthAt ss.text pos.line.toNat < pos.column - 1) ∧
    (pos.line ≤ ((lineStartsOf ss.text).length : Int) → 1 ≤ pos.column →
      pos.column - 1 ≤ lineWidthAt ss.text pos.line.toNat →
      ss.SetPosition pos =
        Except.ok ⟨ss.text, lineStartAt ss.text pos.line.toNat + (pos.column - 1).toNat⟩) := by
  by_cases hgt : ((lineStartsOf ss.text).length : Int) < pos.line
  · constructor
    · rw [show ss.SetPosition pos = Except.error StreamErr.invalidPosition by
        simp only [StringStream.SetPosition]
        rw [if_pos (Or.inl hgt)]]
      simp [hgt]
    · intro hle
      omega
  · -- the line is in range: the guard can only fire on column = 0
    have hlen : 1 ≤ (lineStartsOf ss.text).length := by
      by_contra hc
      have : lineStartsOf ss.text = [] := by
        cases h : lineStartsOf ss.text with
        | nil => rfl
        | cons a l => rw [h] at hc; simp at hc
      rw [this] at hgt
      simp at hgt
      omega
    have hidx1 : pyIndex (lineStartsOf ss.text) (pos.line - 1) =
        Except.ok (lineStartAt ss.text pos.line.toNat) := by
      have := pyIndex_of_nonneg (lineStartsOf ss.text) (pos.line - 1)
        (by omega) (by omega)
      rw [this]
      congr 1
      unfold lineStartAt
      congr 1
      omega
    by_cases hcol : pos.column = 0
    · constructor
      · rw [show ss.SetPosition pos = Except.error StreamErr.invalidPosition by
          simp only [StringStream.SetPosition]
          rw [if_pos (Or.inr (Or.inr hcol))]]
        simp [hcol]
      · intro _ hc1
        omega
    · have hguard : ¬(pos.line > ((lineStartsOf ss.text).length : Int) ∨
          pos.line = 0 ∨ pos.column = 0) := by
        push_neg
        exact ⟨by omega, by omega, hcol⟩
      have hwidth : (if pos.line = ((lineStartsOf ss.text).length : Int) then
            Except.ok ((ss.text.length : Int) - (lineStartAt ss.text pos.line.toNat : Int))
          else (pyIndex (lineStartsOf ss.text) pos.line).map
            (fun nxt => (nxt : Int) - (lineStartAt ss.text pos.line.toNat : Int))) =
          Except.ok (lineWidthAt ss.text pos.line.toNat) := by
        by_cases hlast : pos.line = ((lineStartsOf ss.text).length : Int)
        · rw [if_pos hlast]
          unfold lineWidthAt
          rw [if_pos (by omega)]
        · rw [if_neg hlast]
          have hidx2 : pyIndex (lineStartsOf ss.text) pos.line =
              Except.ok ((lineStartsOf ss.text).getD pos.line.toNat 0) :=
            pyIndex_of_nonneg _ _ (by omega) (by omega)
          rw [hidx2]
          unfold lineWidthAt
          rw [if_neg (by omega)]
          rfl
      have hunfold : ss.SetPosition pos =
          (if pos.column - 1 > lineWidthAt ss.text pos.line.toNat then
            Except.error StreamErr.invalidPosition
          else Except.ok (ss.SetOffset
            ((lineStartAt ss.text pos.line.toNat : Int) + pos.column - 1))) := by
        simp only [StringStream.SetPosition]
        rw [if_neg hguard]
        simp only [hidx1, hwidth]
      constructor
      · rw [hunfold]
        by_cases hw : pos.column - 1 > lineWidthAt ss.text pos.line.toNat
        · rw [if_pos hw]
          constructor
          · intro _
            exact Or.inr (Or.inr hw)
          · intro _
            rfl
        · rw [if_neg hw]
          constructor
          · intro h
            exact absurd h (by simp)
          · intro h
            exfalso
            rcases h with h | h | h
            · omega
            · exact hcol h
            · omega
      · intro _ hc1 hwle
        rw [hunfold, if_neg (by omega)]
        congr 1
        have hub : (lineStartAt ss.text pos.line.toNat : Int) + pos.column - 1 ≤
            (ss.text.length : Int) := by
          by_cases hlast : pos.line.toNat = (lineStartsOf ss.text).length
          · have : lineWidthAt ss.text pos.line.toNat =
                (ss.text.length : Int) - (lineStartAt ss.text pos.line.toNat : Int) := by
              unfold lineWidthAt
              rw [if_pos hlast]
            omega
          · have hmem : (lineStartsOf ss.text).getD pos.line.toNat 0 ∈ lineStartsOf ss.text := by
              have hlt : pos.line.toNat < (lineStartsOf ss.text).length := by omega
              rw [List.getD_eq_getElem?_getD, List.getElem?_eq_getElem hlt]
              exact Option.getD_some ▸ List.getElem_mem hlt
            have hle := lineStarts_le_length ss.text _ hmem
            have : lineWidthAt ss.text pos.line.toNat =
                ((lineStartsOf ss.text).getD pos.line.toNat 0 : Int) -
                  (lineStartAt ss.text pos.line.toNat : Int) := by
              unfold lineWidthAt
              rw [if_neg hlast]
            omega
        simp only [StringStream.SetOffset]
        congr 1
        omega

/-- Claim C5 (amended, for positive line numbers): with `1 ≤ line`,
`setPosition` fails with the invalid-position condition exactly when
the line exceeds the known line count, or the column is zero, or
`column - 1` exceeds the line's width; a ZERO line also fails, but
negative lines and columns are not rejected as the claim states
(negative lines resolve by Python negative indexing — see the
counterexample — and negative columns merely clamp the offset).
When valid (and the column is at least 1), the offset is set to
exactly `lineStart + column - 1`. -/
theorem claim_C5_setposition_amended (ss : StringStream) (pos : Position)
    (hline : 1 ≤ pos.line) :
    (ss.SetPosition pos = Except.error StreamErr.invalidPosition ↔
      ((lineStartsOf ss.text).length : Int) < pos.line ∨ pos.column = 0 ∨
        lineWidthAt ss.text pos.line.toNat < pos.column - 1) ∧
    (pos.line ≤ ((lineStartsOf ss.text).length : Int) → 1 ≤ pos.column →
      pos.column - 1 ≤ lineWidthAt ss.text pos.line.toNat →
      ss.SetPosition pos =
        Except.ok ⟨ss.text, lineStartAt ss.text pos.line.toNat + (pos.column - 1).toNat⟩) :=
  setPosition_characterization ss pos hline

/-- Claim C5 witness: seeking to line 2, column 2 of `"a\nb"` lands on
offset 3. -/
theorem claim_C5_witness :
    StringStream.SetPosition ⟨strChars "a\nb", 0⟩ ⟨2, 2⟩ =
      Except.ok ⟨strChars "a\nb", 3⟩ :=
  (claim_C5_setposition_amended ⟨strChars "a\nb", 0⟩ ⟨2, 2⟩ (by decide)).2
    (by decide) (by decide) (by decide)


theorem getLastD_eq_getD (l : List Nat) :
    ∀ d, l ≠ [] → l.getLastD d = l.getD (l.length - 1) 0 := by
  induction l with
  | nil => intro d h; exact absurd rfl h
  | cons a rest ih =>
    intro d _
    cases rest with
    | nil => rfl
    | cons b r =>
      rw [List.getLastD_cons, ih a (by simp)]
      have hidx : (a :: b :: r).length - 1 = ((b :: r).length - 1) + 1 := by
        simp
      rw [hidx]
      rfl

theorem getLastD_mem (l : List Nat) : ∀ d, l ≠ [] → l.getLastD d ∈ l := by
  induction l with
  | nil => intro d h; exact absurd rfl h
  | cons a rest ih =>
    intro d _
    cases rest with
    | nil => simp [List.getLastD]
    | cons b r =>
      rw [List.getLastD_cons]
      exact List.mem_cons_of_mem a (ih a (by simp))

/-- The element of `L` just past its `takeWhile` prefix fails the
predicate. -/
theorem takeWhile_stop (p : Nat → Bool) :
    ∀ L : List Nat, (L.takeWhile p).length < L.length →
      p (L.getD (L.takeWhile p).length 0) = false := by
  intro L
  induction L with
  | nil => simp
  | cons a rest ih =>
    intro h
    by_cases hp : p a
    · rw [List.takeWhile_cons, if_pos hp] at h ⊢
      simp only [List.length_cons] at h ⊢
      have := ih (by omega)
      simpa using this
    · rw [List.takeWhile_cons, if_neg hp] at h ⊢
      simpa using hp

/-- The `GetPosition` scan computed via `takeWhile`: the loop breaks at
the first line start exceeding the offset, so it returns the running
line count plus the length of the `≤ offset` prefix, and the last
element of that prefix (or the incoming `closest` if it is empty). -/
theorem scanLineStarts_eq (L : List Nat) :
    ∀ (offset : Nat) (l0 : Int) (c0 : Nat),
      scanLineStarts L offset l0 c0 =
        (l0 + ((L.takeWhile (fun ls => decide (ls ≤ offset))).length : Int),
         (L.takeWhile (fun ls => decide (ls ≤ offset))).getLastD c0) := by
  induction L with
  | nil =>
    intro offset l0 c0
    simp [scanLineStarts]
  | cons a rest ih =>
    intro offset l0 c0
    by_cases h : offset < a
    · rw [show scanLineStarts (a :: rest) offset l0 c0 = (l0, c0) from by
        simp only [scanLineStarts]
        rw [if_pos (by omega)]]
      rw [List.takeWhile_cons, if_neg (by simpa using by omega)]
      simp
    · rw [show scanLineStarts (a :: rest) offset l0 c0 =
          scanLineStarts rest offset (l0 + 1) a from by
        simp only [scanLineStarts]
        rw [if_neg (by omega)]]
      rw [ih offset (l0 + 1) a, List.takeWhile_cons, if_pos (by simpa using by omega)]
      rw [Prod.mk.injEq]
      refine ⟨?_, ?_⟩
      · simp only [List.length_cons]
        push_cast
        ring
      · rw [List.getLastD_cons]

theorem lineStartsOf_head (text : List Char) :
    ∃ rest, lineStartsOf text = 0 :: rest := by
  unfold lineStartsOf
  cases (pyReadlines text).dropLast with
  | nil => exact ⟨[], rfl⟩
  | cons l ls => exact ⟨buildStarts ls (0 + l.length), rfl⟩

/-- The work horse of the round-trip claim, with the `takeWhile` prefix
and its last element abstracted into variables. -/
theorem roundtrip_aux (text : List Char) (offset : Nat) (t : List Nat)
    (closest : Nat) (h : offset ≤ text.length)
    (ht : (lineStartsOf text).takeWhile (fun ls => decide (ls ≤ offset)) = t)
    (hc : t.getLastD 0 = closest) (htne : t ≠ []) :
    StringStream.GetPosition ⟨text, offset⟩ =
      ⟨(t.length : Int), (offset : Int) - (closest : Int) + 1⟩ ∧
    StringStream.SetPosition ⟨text, offset⟩
        ⟨(t.length : Int), (offset : Int) - (closest : Int) + 1⟩ =
      Except.ok ⟨text, offset⟩ := by
  have ht1 : 1 ≤ t.length := by
    cases hx : t with
    | nil => exact absurd hx htne
    | cons a l => simp [hx]
  obtain ⟨s, hs⟩ := List.takeWhile_prefix (l := lineStartsOf text)
    (fun ls => decide (ls ≤ offset))
  rw [ht] at hs
  have htlen_le : t.length ≤ (lineStartsOf text).length := by
    rw [← hs]
    simp
  have hcle : closest ≤ offset := by
    have hm : closest ∈ t := hc ▸ getLastD_mem t 0 htne
    rw [← ht] at hm
    have := List.mem_takeWhile_imp hm
    simpa using this
  have hclosest_eq : closest = lineStartAt text t.length := by
    unfold lineStartAt
    rw [← hs, List.getD_eq_getElem?_getD, List.getElem?_append_left (by omega),
      ← List.getD_eq_getElem?_getD, ← getLastD_eq_getD t 0 htne, hc]
  have hwb : (offset : Int) - (closest : Int) ≤ lineWidthAt text t.length := by
    by_cases hfull : t.length = (lineStartsOf text).length
    · unfold lineWidthAt
      rw [if_pos hfull, ← hclosest_eq]
      omega
    · have hlt : t.length < (lineStartsOf text).length := by omega
      have hstop := takeWhile_stop (fun ls => decide (ls ≤ offset))
        (lineStartsOf text) (by rw [ht]; omega)
      rw [ht] at hstop
      have hofflt : offset < (lineStartsOf text).getD t.length 0 := by
        simpa using hstop
      unfold lineWidthAt
      rw [if_neg hfull, ← hclosest_eq]
      omega
  constructor
  · simp only [StringStream.GetPosition, scanLineStarts_eq, ht, hc]
    rw [Position.mk.injEq]
    refine ⟨by omega, rfl⟩
  · have hchar := setPosition_characterization ⟨text, offset⟩
      ⟨(t.length : Int), (offset : Int) - (closest : Int) + 1⟩
      (by show (1 : Int) ≤ (t.length : Int); exact_mod_cast ht1)
    have happ := hchar.2
      (by show (t.length : Int) ≤ ((lineStartsOf text).length : Int)
          exact_mod_cast htlen_le)
      (by show (1 : Int) ≤ (offset : Int) - (closest : Int) + 1
          omega)
      (by show (offset : Int) - (closest : Int) + 1 - 1 ≤
            lineWidthAt text ((t.length : Int)).toNat
          rw [Int.toNat_ofNat]
          omega)
    rw [happ]
    congr 1
    rw [StringStream.mk.injEq]
    refine ⟨rfl, ?_⟩
    show lineStartAt text ((t.length : Int)).toNat +
        ((offset : Int) - (closest : Int) + 1 - 1).toNat = offset
    rw [Int.toNat_ofNat, ← hclosest_eq]
    omega

/-- Claim C4: for any text and any offset within `[0, length]`, the
conversion offset → `Position` → offset is lossless: `setPosition`
applied to `position()` does not fail and restores exactly the same
offset. -/
theorem claim_C4_position_roundtrip (text : List Char) (offset : Nat)
    (h : offset ≤ text.length) :
    StringStream.SetPosition ⟨text, offset⟩
        (StringStream.GetPosition ⟨text, offset⟩) =
      Except.ok ⟨text, offset⟩ := by
  obtain ⟨restL, hL⟩ := lineStartsOf_head text
  have htne : (lineStartsOf text).takeWhile (fun ls => decide (ls ≤ offset)) ≠ [] := by
    rw [hL, List.takeWhile_cons, if_pos (by simp)]
    simp
  obtain ⟨hpos, hset⟩ := roundtrip_aux text offset
    ((lineStartsOf text).takeWhile (fun ls => decide (ls ≤ offset)))
    (((lineStartsOf text).takeWhile (fun ls => decide (ls ≤ offset))).getLastD 0)
    h rfl rfl htne
  rw [hpos, hset]

/-- Claim C4 witness on `"ab\ncd"` at offset 4. -/
theorem claim_C4_witness :
    StringStream.SetPosition ⟨strChars "ab\ncd", 4⟩
        (StringStream.GetPosition ⟨strChars "ab\ncd", 4⟩) =
      Except.ok ⟨strChars "ab\ncd", 4⟩ :=
  claim_C4_position_roundtrip (strChars "ab\ncd") 4 (by decide)

/-- The ordered list of (pattern, match) pairs the selection loop sees:
each registered pattern paired with its match where one exists. -/
def lexMatches (ps : List LexPattern) (s : List Char) :
    List (LexPattern × List Char) :=
  ps.filterMap (fun p => (p.regex s).map (fun m => (p, m)))

/-- The greatest match length among `ms` (0 if none). -/
def maxMatchLen (ms : List (LexPattern × List Char)) : Nat :=
  (ms.map (fun x => x.2.length)).foldl Nat.max 0

/-- First-strict-improvement selection, the shape of the loop's
accumulator update: a candidate replaces the current best only on a
strictly longer match. -/
def firstMaxFrom (x : LexPattern × List Char) :
    List (LexPattern × List Char) → LexPattern × List Char
  | [] => x
  | y :: rest =>
    if y.2.length > x.2.length then firstMaxFrom y rest else firstMaxFrom x rest

theorem foldl_max_init (l : List Nat) :
    ∀ a : Nat, l.foldl Nat.max a = Nat.max a (l.foldl Nat.max 0) := by
  induction l with
  | nil => intro a; simp
  | cons b r ih =>
    intro a
    simp only [List.foldl_cons, Nat.zero_max]
    rw [ih (Nat.max a b), ih b]
    simp only [Nat.max_def]
    split_ifs <;> omega

theorem maxMatchLen_cons (x : LexPattern × List Char)
    (l : List (LexPattern × List Char)) :
    maxMatchLen (x :: l) = Nat.max x.2.length (maxMatchLen l) := by
  simp only [maxMatchLen, List.map_cons, List.foldl_cons]
  rw [foldl_max_init]
  simp

/-- The first-strict-improvement loop implements "compute the maximum
match length, then take the first entry achieving it" — i.e. longest
match with earliest-entry tie-breaking. -/
theorem find_max_eq_firstMaxFrom (l : List (LexPattern × List Char)) :
    ∀ x, (x :: l).find? (fun y => y.2.length == maxMatchLen (x :: l)) =
      some (firstMaxFrom x l) := by
  induction l with
  | nil =>
    intro x
    rw [List.find?_cons_of_pos _ (by
      simp [maxMatchLen_cons, maxMatchLen])]
    rfl
  | cons y rest ih =>
    intro x
    by_cases hgt : y.2.length > x.2.length
    · have hmax : maxMatchLen (x :: y :: rest) = maxMatchLen (y :: rest) := by
        rw [maxMatchLen_cons x (y :: rest), maxMatchLen_cons y rest]
        simp only [Nat.max_def]
        split_ifs <;> omega
      have hxfail : x.2.length ≠ maxMatchLen (x :: y :: rest) := by
        rw [hmax, maxMatchLen_cons]
        simp only [Nat.max_def]
        split_ifs <;> omega
      rw [List.find?_cons_of_neg _ (by simpa using hxfail), hmax, ih y]
      rw [show firstMaxFrom x (y :: rest) = firstMaxFrom y rest from by
        simp [firstMaxFrom, hgt]]
    · have hyle : y.2.length ≤ x.2.length := by omega
      have hmax : maxMatchLen (x :: y :: rest) = maxMatchLen (x :: rest) := by
        rw [maxMatchLen_cons x (y :: rest), maxMatchLen_cons y rest,
          maxMatchLen_cons x rest]
        simp only [Nat.max_def]
        split_ifs <;> omega
      have hfm : firstMaxFrom x (y :: rest) = firstMaxFrom x rest := by
        simp [firstMaxFrom, hgt]
      rw [hfm, hmax]
      by_cases hx : x.2.length = maxMatchLen (x :: rest)
      · rw [List.find?_cons_of_pos _ (by simpa using hx)]
        have := ih x
        rw [List.find?_cons_of_pos _ (by simpa using hx)] at this
        exact this
      · have hxmax : x.2.length ≤ maxMatchLen (x :: rest) := by
          rw [maxMatchLen_cons]
          exact Nat.le_max_left _ _
        have hy : y.2.length ≠ maxMatchLen (x :: rest) := by omega
        rw [List.find?_cons_of_neg _ (by simpa using hx),
          List.find?_cons_of_neg _ (by simpa using hy)]
        have := ih x
        rw [List.find?_cons_of_neg _ (by simpa using hx)] at this
        exact this

/-- The selection loop with a non-empty accumulator computes
`firstMaxFrom` over the remaining matches. -/
theorem lexSelect_some (ps : List LexPattern) (s : List Char) :
    ∀ q mv, lexSelect ps s (some q, mv, mv.length) =
      (some (firstMaxFrom (q, mv) (lexMatches ps s)).1,
       (firstMaxFrom (q, mv) (lexMatches ps s)).2,
       (firstMaxFrom (q, mv) (lexMatches ps s)).2.length) := by
  induction ps with
  | nil =>
    intro q mv
    simp [lexSelect, lexMatches, firstMaxFrom]
  | cons p rest ih =>
    intro q mv
    cases hreg : p.regex s with
    | none =>
      rw [show lexSelect (p :: rest) s (some q, mv, mv.length) =
          lexSelect rest s (some q, mv, mv.length) from by
        simp [lexSelect, hreg]]
      rw [ih q mv]
      have : lexMatches (p :: rest) s = lexMatches rest s := by
        simp [lexMatches, List.filterMap_cons, hreg]
      rw [this]
    | some m =>
      have hms : lexMatches (p :: rest) s = (p, m) :: lexMatches rest s := by
        simp [lexMatches, List.filterMap_cons, hreg]
      rw [hms]
      by_cases hgt : m.length > mv.length
      · rw [show lexSelect (p :: rest) s (some q, mv, mv.length) =
            lexSelect rest s (some p, m, m.length) from by
          simp only [lexSelect, hreg]
          rw [if_pos (Or.inr hgt)]]
        rw [ih p m]
        rw [show firstMaxFrom (q, mv) ((p, m) :: lexMatches rest s) =
            firstMaxFrom (p, m) (lexMatches rest s) from by
          simp [firstMaxFrom, hgt]]
      · rw [show lexSelect (p :: rest) s (some q, mv, mv.length) =
            lexSelect rest s (some q, mv, mv.length) from by
          simp only [lexSelect, hreg]
          rw [if_neg (by simp; omega)]]
        rw [ih q mv]
        rw [show firstMaxFrom (q, mv) ((p, m) :: lexMatches rest s) =
            firstMaxFrom (q, mv) (lexMatches rest s) from by
          simp [firstMaxFrom, hgt]]

/-- The selection loop from its initial `(None, "", 0)` accumulator:
no match at all leaves the accumulator, otherwise the result is the
first-strict-improvement choice seeded by the first match. -/
theorem lexSelect_none (ps : List LexPattern) (s : List Char) :
    lexSelect ps s (none, [], 0) =
      match lexMatches ps s with
      | [] => (none, [], 0)
      | x :: rest =>
        (some (firstMaxFrom x rest).1, (firstMaxFrom x rest).2,
         (firstMaxFrom x rest).2.length) := by
  induction ps with
  | nil => simp [lexSelect, lexMatches]
  | cons p rest ih =>
    cases hreg : p.regex s with
    | none =>
      rw [show lexSelect (p :: rest) s (none, [], 0) =
          lexSelect rest s (none, [], 0) from by
        simp [lexSelect, hreg]]
      rw [ih]
      have : lexMatches (p :: rest) s = lexMatches rest s := by
        simp [lexMatches, List.filterMap_cons, hreg]
      rw [this]
    | some m =>
      have hms : lexMatches (p :: rest) s = (p, m) :: lexMatches rest s := by
        simp [lexMatches, List.filterMap_cons, hreg]
      rw [hms]
      rw [show lexSelect (p :: rest) s (none, [], 0) =
          lexSelect rest s (some p, m, m.length) from by
        simp only [lexSelect, hreg]
        rw [if_pos (Or.inl (by simp))]]
      exact lexSelect_some rest s p m

theorem specBest_eq_firstMax (ps : List LexPattern) (s : List Char)
    (x : LexPattern × List Char) (rest : List (LexPattern × List Char))
    (h : lexMatches ps s = x :: rest) :
    specBest ps s = some (firstMaxFrom x rest) := by
  show (lexMatches ps s).find?
    (fun y => y.2.length == maxMatchLen (lexMatches ps s)) = _
  rw [h]
  exact find_max_eq_firstMaxFrom rest x

theorem mem_le_maxMatchLen (ms : List (LexPattern × List Char)) :
    ∀ z ∈ ms, z.2.length ≤ maxMatchLen ms := by
  induction ms with
  | nil => simp
  | cons x rest ih =>
    intro z hz
    rw [maxMatchLen_cons]
    rcases List.mem_cons.mp hz with rfl | hz
    · simp only [Nat.max_def]
      split_ifs <;> omega
    · have := ih z hz
      simp only [Nat.max_def]
      split_ifs <;> omega

/-- When `specBest` picks `(p, m)`, `Lex` produces exactly the token
for `p` with raw match `m` and advances by `m`'s length. -/
theorem lex_of_specBest (lx : Lexer) (ss : StringStream) (p : LexPattern)
    (m : List Char) (hne : ss.IsEOS = false)
    (hbest : specBest lx.patterns ss.PeekRemainder = some (p, m)) :
    Lexer.Lex lx ss =
      (⟨p.id, ss.GetPosition, applyAction p.action m⟩, ss.Ignore m.length) := by
  cases hms : lexMatches lx.patterns ss.PeekRemainder with
  | nil =>
    have h0 : specBest lx.patterns ss.PeekRemainder = none := by
      show (lexMatches lx.patterns ss.PeekRemainder).find?
        (fun y => y.2.length == maxMatchLen
          (lexMatches lx.patterns ss.PeekRemainder)) = none
      rw [hms]
      rfl
    rw [h0] at hbest
    cases hbest
  | cons x rest =>
    have hfm := specBest_eq_firstMax lx.patterns ss.PeekRemainder x rest hms
    rw [hfm] at hbest
    have hpm : firstMaxFrom x rest = (p, m) := by
      injection hbest
    have hsel : lexSelect lx.patterns ss.PeekRemainder (none, [], 0) =
        (some p, m, m.length) := by
      rw [lexSelect_none, hms]
      show (some (firstMaxFrom x rest).1, (firstMaxFrom x rest).2,
        (firstMaxFrom x rest).2.length) = (some p, m, m.length)
      rw [hpm]
    simp only [Lexer.Lex, hne, Bool.false_eq_true, if_false, hsel]

/-- Claim C2: at any non-end position, whenever some registered pattern
matches, `Lex` selects the pattern/match pair `specBest` describes —
the longest matched substring, the earliest-registered pattern winning
exact-length ties (`specBest` computes the maximal length first and
takes the first pattern achieving it) — producing that pattern's token
and advancing by the raw match length; every other pattern's match is
no longer than the selected one. -/
theorem claim_C2_longest_match_tiebreak (lx : Lexer) (ss : StringStream)
    (p : LexPattern) (m : List Char) (hne : ss.IsEOS = false)
    (hbest : specBest lx.patterns ss.PeekRemainder = some (p, m)) :
    (Lexer.Lex lx ss).1.patternID = p.id ∧
    (Lexer.Lex lx ss).1.value = applyAction p.action m ∧
    (Lexer.Lex lx ss).2.offset = min (ss.offset + m.length) ss.text.length ∧
    (∀ q ∈ lx.patterns, ∀ mq, q.regex ss.PeekRemainder = some mq →
      mq.length ≤ m.length) := by
  have hlex := lex_of_specBest lx ss p m hne hbest
  refine ⟨by rw [hlex], by rw [hlex], by rw [hlex]; rfl, ?_⟩
  intro q hq mq hmq
  have hmem : (q, mq) ∈ lexMatches lx.patterns ss.PeekRemainder := by
    simp only [lexMatches, List.mem_filterMap]
    exact ⟨q, hq, by rw [hmq]; rfl⟩
  have hle := mem_le_maxMatchLen _ _ hmem
  have hpred := List.find?_some (p := fun y : LexPattern × List Char =>
    y.2.length == maxMatchLen (lexMatches lx.patterns ss.PeekRemainder))
    (by exact hbest)
  have : m.length = maxMatchLen (lexMatches lx.patterns ss.PeekRemainder) := by
    simpa using hpred
  simpa [this] using hle

def matchSingleA : RegexM := fun s =>
  match s with
  | 'a' :: _ => some ['a']
  | _ => none

def matchDoubleAB : RegexM := fun s =>
  match s with
  | 'a' :: 'b' :: _ => some ['a', 'b']
  | _ => none

def overlapLexer : Lexer :=
  ⟨none, none, [⟨"short", matchSingleA, none⟩, ⟨"long", matchDoubleAB, none⟩]⟩

def tieLexer : Lexer :=
  ⟨none, none, [⟨"first", matchSingleA, none⟩, ⟨"second", matchSingleA, none⟩]⟩

/-- Claim C2 witness: with a 1-char and a 2-char pattern both matching
at `"ab"` the 2-char pattern wins; with two equal-length patterns the
earliest-registered one wins. -/
theorem claim_C2_witness :
    (Lexer.Lex overlapLexer ⟨strChars "ab", 0⟩).1.patternID = "long" ∧
    (Lexer.Lex overlapLexer ⟨strChars "ab", 0⟩).2.offset = 2 ∧
    (Lexer.Lex tieLexer ⟨strChars "a", 0⟩).1.patternID = "first" := by
  have h1 := claim_C2_longest_match_tiebreak overlapLexer ⟨strChars "ab", 0⟩
    ⟨"long", matchDoubleAB, none⟩ (strChars "ab") rfl rfl
  have h2 := claim_C2_longest_match_tiebreak tieLexer ⟨strChars "a", 0⟩
    ⟨"first", matchSingleA, none⟩ (strChars "a") rfl rfl
  exact ⟨h1.1, h1.2.2.1, h2.1⟩

theorem firstMaxFrom_stay (x : LexPattern × List Char) :
    ∀ l, (∀ z ∈ l, z.2.length ≤ x.2.length) → firstMaxFrom x l = x := by
  intro l
  induction l with
  | nil => intro _; rfl
  | cons y rest ih =>
    intro h
    have hy : ¬ y.2.length > x.2.length := by
      have := h y (List.mem_cons_self y rest)
      omega
    rw [show firstMaxFrom x (y :: rest) = firstMaxFrom x rest from by
      simp [firstMaxFrom, hy]]
    exact ih (fun z hz => h z (List.mem_cons_of_mem y hz))

/-- The first pattern whose regex matches heads the match list. -/
theorem lexMatches_head_of_find (ps : List LexPattern) (s : List Char)
    (p : LexPattern) :
    ps.find? (fun q => (q.regex s).isSome) = some p →
    ∃ mp rest, p.regex s = some mp ∧ lexMatches ps s = (p, mp) :: rest := by
  induction ps with
  | nil => intro h; cases h
  | cons q qs ih =>
    intro h
    cases hreg : q.regex s with
    | some m =>
      rw [List.find?_cons_of_pos _ (by simp [hreg])] at h
      have hqp : q = p := by injection h
      subst hqp
      exact ⟨m, lexMatches qs s, hreg,
        by simp [lexMatches, List.filterMap_cons, hreg]⟩
    | none =>
      rw [List.find?_cons_of_neg _ (by simp [hreg])] at h
      obtain ⟨mp, rest, hmp, hrest⟩ := ih h
      refine ⟨mp, rest, hmp, ?_⟩
      rw [show lexMatches (q :: qs) s = lexMatches qs s from by
        simp [lexMatches, List.filterMap_cons, hreg]]
      exact hrest

/-- Claim C10: at a non-end position where some registered pattern
matches the empty string and no registered pattern matches a non-empty
string, `Lex` returns a token for the FIRST matching pattern with the
(action-transformed) empty value and leaves the stream offset
unchanged; the Unknown sentinel is not produced (it only appears when
no pattern matches at all), so repeated lexing at the position never
advances. -/
theorem claim_C10_zero_length_match (lx : Lexer) (ss : StringStream)
    (p : LexPattern) (hoff : ss.offset ≤ ss.text.length)
    (hne : ss.IsEOS = false)
    (hfind : lx.patterns.find? (fun q => (q.regex ss.PeekRemainder).isSome) =
      some p)
    (hall : ∀ q ∈ lx.patterns, ∀ mq, q.regex ss.PeekRemainder = some mq →
      mq = []) :
    Lexer.Lex lx ss =
      (⟨p.id, ss.GetPosition, applyAction p.action []⟩, ss.Ignore 0) ∧
    (Lexer.Lex lx ss).2.offset = ss.offset ∧
    (p.action = none → (Lexer.Lex lx ss).1.value = []) := by
  obtain ⟨mp, rest, hmp, hrest⟩ :=
    lexMatches_head_of_find lx.patterns ss.PeekRemainder p hfind
  have hp_mem : p ∈ lx.patterns := List.mem_of_find?_eq_some hfind
  have hmp0 : mp = [] := hall p hp_mem mp hmp
  subst hmp0
  have hstay : firstMaxFrom (p, []) rest = (p, []) := by
    apply firstMaxFrom_stay
    intro z hz
    have hzm : z ∈ lexMatches lx.patterns ss.PeekRemainder := by
      rw [hrest]
      exact List.mem_cons_of_mem _ hz
    simp only [lexMatches, List.mem_filterMap] at hzm
    obtain ⟨q, hq, hqz⟩ := hzm
    cases hreg : q.regex ss.PeekRemainder with
    | none =>
      rw [hreg] at hqz
      cases hqz
    | some mz =>
      rw [hreg] at hqz
      have hz2 : (q, mz) = z := by
        simpa using hqz
      have hmz : mz = [] := hall q hq mz hreg
      rw [← hz2, hmz]
  have hbest : specBest lx.patterns ss.PeekRemainder = some (p, []) := by
    rw [specBest_eq_firstMax lx.patterns ss.PeekRemainder (p, []) rest hrest,
      hstay]
  have hlex := lex_of_specBest lx ss p [] hne hbest
  refine ⟨hlex, ?_, ?_⟩
  · rw [hlex]
    show min (ss.offset + 0) ss.text.length = ss.offset
    omega
  · intro ha
    rw [hlex]
    show applyAction p.action [] = []
    rw [ha]
    rfl

def matchEmpty : RegexM := fun _ => some []

def emptyMatchLexer : Lexer := ⟨none, none, [⟨"E", matchEmpty, none⟩]⟩

/-- Claim C10 witness: a lexer whose only pattern matches the empty
string produces an `"E"` token at offset 0 and does not advance. -/
theorem claim_C10_witness :
    (Lexer.Lex emptyMatchLexer ⟨strChars "ab", 0⟩).2.offset = 0 ∧
    (Lexer.Lex emptyMatchLexer ⟨strChars "ab", 0⟩).1.patternID = "E" ∧
    (Lexer.Lex emptyMatchLexer ⟨strChars "ab", 0⟩).1.value = [] := by
  have h := claim_C10_zero_length_match emptyMatchLexer ⟨strChars "ab", 0⟩
    ⟨"E", matchEmpty, none⟩ (by decide) rfl rfl
    (by
      intro q hq mq hmq
      simp only [emptyMatchLexer, List.mem_singleton] at hq
      subst hq
      have : some ([] : List Char) = some mq := hmq
      simpa using this.symm)
  exact ⟨h.2.1, by rw [h.1], h.2.2 rfl⟩

theorem fillAux_preserve : ∀ (f : Nat) (ts : TokenStream),
    (fillAux f ts).offset = ts.offset ∧
    (fillAux f ts).ignores = ts.ignores ∧
    ts.tokens.length ≤ (fillAux f ts).tokens.length := by
  intro f
  induction f with
  | zero => intro ts; exact ⟨rfl, rfl, le_refl _⟩
  | succ k ih =>
    intro ts
    simp only [fillAux]
    split
    · have h := ih (appendLex ts)
      have hlen : (appendLex ts).tokens.length = ts.tokens.length + 1 := by
        simp [appendLex]
      refine ⟨by rw [h.1]; rfl, by rw [h.2.1]; rfl, ?_⟩
      have h2 := h.2.2
      omega
    · exact ⟨rfl, rfl, le_refl _⟩

theorem fillTokens_offset (ts : TokenStream) :
    (fillTokens ts).offset = ts.offset :=
  (fillAux_preserve _ ts).1

theorem fillTokens_ignores (ts : TokenStream) :
    (fillTokens ts).ignores = ts.ignores :=
  (fillAux_preserve _ ts).2.1

theorem fillTokens_len (ts : TokenStream) :
    ts.tokens.length ≤ (fillTokens ts).tokens.length :=
  (fillAux_preserve _ ts).2.2

/-- After a successful `Get` the cache covers the original cursor, has
not shrunk, and the ignore set is unchanged. -/
theorem tsGet_spec : ∀ (n : Nat) (ts : TokenStream) (t : Token)
    (ts' : TokenStream), TokenStream.Get n ts = some (t, ts') →
    ts.tokens.length ≤ ts'.tokens.length ∧
    ts.offset + 1 ≤ ts'.tokens.length ∧
    ts'.ignores = ts.ignores := by
  intro n
  induction n with
  | zero => intro ts t ts' h; cases h
  | succ k ih =>
    intro ts t ts' h
    rw [TokenStream.Get] at h
    split at h
    · cases h
    · rename_i token hg
      have hlt : ts.offset + 1 ≤ (fillTokens ts).tokens.length := by
        have := (List.get?_eq_some.mp hg).1
        rw [fillTokens_offset] at this
        omega
      simp only [] at h
      split at h
      · have hrec := ih _ _ _ h
        obtain ⟨hr1, hr2, hr3⟩ := hrec
        refine ⟨le_trans (fillTokens_len ts) hr1, le_trans hlt hr1, ?_⟩
        rw [hr3]
        exact fillTokens_ignores ts
      · rcases h with ⟨rfl, rfl⟩
        exact ⟨fillTokens_len ts, hlt, fillTokens_ignores ts⟩

theorem tsPeek_spec (n : Nat) (ts : TokenStream) (t : Token)
    (ts' : TokenStream) (h : TokenStream.Peek n ts = some (t, ts')) :
    ts'.offset = ts.offset ∧
    ts.tokens.length ≤ ts'.tokens.length ∧
    ts.offset + 1 ≤ ts'.tokens.length ∧
    ts'.ignores = ts.ignores := by
  simp only [TokenStream.Peek] at h
  cases hg : TokenStream.Get n ts with
  | none =>
    rw [hg] at h
    cases h
  | some r =>
    rw [hg] at h
    simp only [Option.map_some'] at h
    rcases h with ⟨rfl, rfl⟩
    have := tsGet_spec n ts r.1 r.2 (by rw [hg])
    exact ⟨rfl, this.1, this.2.1, this.2.2⟩

theorem tsGetPosition_spec (n : Nat) (ts : TokenStream) (pos : Position)
    (ts' : TokenStream) (h : TokenStream.GetPosition n ts = some (pos, ts')) :
    ts'.offset = ts.offset ∧
    ts.tokens.length ≤ ts'.tokens.length ∧
    ts'.ignores = ts.ignores := by
  simp only [TokenStream.GetPosition] at h
  cases hp : TokenStream.Peek n ts with
  | none =>
    rw [hp] at h
    cases h
  | some r =>
    rw [hp] at h
    simp only [Option.map_some'] at h
    rcases h with ⟨rfl, rfl⟩
    have := tsPeek_spec n ts r.1 r.2 (by rw [hp])
    exact ⟨this.1, this.2.1, this.2.2.2⟩

theorem skipIgnores_spec : ∀ (n : Nat) (igns : List String)
    (ts ts' : TokenStream), skipIgnores n igns ts = some ts' →
    ts.tokens.length ≤ ts'.tokens.length ∧
    ts.offset + 1 ≤ ts'.tokens.length ∧
    ts'.ignores = ts.ignores := by
  intro n
  induction n with
  | zero => intro igns ts ts' h; cases h
  | succ k ih =>
    intro igns ts ts' h
    rw [skipIgnores] at h
    split at h
    · cases h
    · rename_i t0 ts1 hp
      have hpk := tsPeek_spec k ts t0 ts1 hp
      split at h
      · split at h
        · cases h
        · rename_i t2 ts2 hg
          have hgk := tsGet_spec k ts1 t2 ts2 hg
          have hrec := ih igns ts2 ts' h
          refine ⟨by omega, by omega, ?_⟩
          rw [hrec.2.2, hgk.2.2, hpk.2.2.2]
      · rcases h with ⟨rfl⟩
        exact ⟨hpk.2.1, hpk.2.2.1, hpk.2.2.2⟩

def matchAnyChar : RegexM := fun s =>
  match s with
  | c :: _ => some [c]
  | [] => none

def charLexer : Lexer := ⟨none, none, [⟨"CH", matchAnyChar, none⟩]⟩

def c3Step (ts : TokenStream) : TokenStream :=
  match TokenStream.Get 5 ts with
  | some (_, t) => t
  | none => ts

/-- A reachable token-stream state: lex `"ab"` to the end (three
`Get`s cache `CH`, `CH`, `EOS`), then rewind the cursor to 0. -/
def c3State : TokenStream :=
  (c3Step (c3Step (c3Step (TokenStream.mk' charLexer (strChars "ab") [])))).SetOffset 0

/-- Claim C3 counterexample: from the rewound state (cursor 0, cache
`[CH, CH, EOS]`), `get()` returns the token at index 0 but sets the
cursor to 2 — NOT 1 — because the cursor-update branch keys on whether
the EOS token is anywhere in the cache, not on the cursor having
reached it.  The next `get()` therefore returns the EOS token and the
second `CH` token is silently skipped, contradicting "advances the
cursor by one". -/
theorem claim_C3_counterexample :
    c3State.offset = 0 ∧
    c3State.tokens.length = 3 ∧
    (TokenStream.Get 5 c3State).map (fun r => (r.1.patternID, r.2.offset)) =
      some ("CH", 2) ∧
    ((TokenStream.Get 5 c3State).bind (fun r => TokenStream.Get 5 r.2)).map
      (fun r => r.1.patternID) = some Lexer.EOS_PATTERN_ID :=
  ⟨rfl, rfl, rfl, rfl⟩

/-- Claim C3 (amended): `get()` lazily lexes until the cache covers the
cursor (or the EOS token is cached) and returns the (non-ignored) token
at the cursor, silently looping past tokens whose pattern id is in the
ignore set; the cursor advances by one as long as the EOS token is not
yet in the cache, but once the EOS token has been cached the cursor is
set to the final cache index after every `get` — even from an earlier
rewound position (see the counterexample), rather than only pinning
when the cursor itself reaches the end. -/
theorem claim_C3_get_amended (n : Nat) (ts : TokenStream) (tok : Token)
    (htok : (fillTokens ts).tokens.get? ts.offset = some tok) :
    (tok.patternID ∉ ts.ignores →
      TokenStream.Get (n + 1) ts =
        some (tok, { fillTokens ts with
          offset := if (fillTokens ts).IsEOS then (fillTokens ts).tokens.length - 1
                    else ts.offset + 1 })) ∧
    (tok.patternID ∈ ts.ignores →
      TokenStream.Get (n + 1) ts =
        TokenStream.Get n { fillTokens ts with
          offset := if (fillTokens ts).IsEOS then (fillTokens ts).tokens.length - 1
                    else ts.offset + 1 }) := by
  have hoff : (fillTokens ts).tokens.get? (fillTokens ts).offset = some tok := by
    rw [fillTokens_offset]
    exact htok
  have hign : (fillTokens ts).ignores = ts.ignores := fillTokens_ignores ts
  constructor
  · intro hmem
    rw [TokenStream.Get, hoff]
    simp only []
    rw [if_neg (by rw [hign]; simpa using hmem), fillTokens_offset]
  · intro hmem
    rw [TokenStream.Get, hoff]
    simp only []
    rw [if_pos (by rw [hign]; simpa using hmem), fillTokens_offset]

/-- Claim C3 witness: in the counterexample state the amended rule
applies concretely — the returned token is the one at the cursor and
the new cursor is the final index because EOS is cached. -/
theorem claim_C3_witness :
    (fillTokens c3State).tokens.get? c3State.offset =
      some ⟨"CH", ⟨1, 1⟩, strChars "a"⟩ ∧
    TokenStream.Get 5 c3State =
      some (⟨"CH", ⟨1, 1⟩, strChars "a"⟩, { fillTokens c3State with
        offset := if (fillTokens c3State).IsEOS then
            (fillTokens c3State).tokens.length - 1
          else c3State.offset + 1 }) :=
  ⟨rfl, (claim_C3_get_amended 4 c3State ⟨"CH", ⟨1, 1⟩, strChars "a"⟩ rfl).1
    (by decide)⟩

theorem tsSetOffset_tokens (ts : TokenStream) (o : Int) :
    (ts.SetOffset o).tokens = ts.tokens := rfl


/-- Unfolding equations for the structurally (fuel-) recursive parse
family, stated per node constructor. -/
theorem parseInner_terminal (n : Nat) (nm pid : String) (v : Option (List Char))
    (tr : Transformer) (ig : List String) (start : Position) (ts : TokenStream) :
    Parser.parseInner (n + 1) (PNode.terminal nm pid v tr ig) start ts =
      (match TokenStream.Get n ts with
       | none => none
       | some (token, ts1) =>
         if token.patternID ≠ pid then
           let expected := match v with
             | some vv => pid ++ "(" ++ String.mk vv ++ ")"
             | none => ""
           let found := token.patternID ++
             (if token.value ≠ [] then "(" ++ String.mk token.value ++ ")" else "")
           some (Except.error (PError.Expectation expected found token.position), ts1)
         else
           match v with
           | some vv =>
             if token.value ≠ vv then
               some (Except.error (PError.Expectation (String.mk vv)
                 (String.mk token.value) token.position), ts1)
             else some (Except.ok ⟨token.position, Value.vstr token.value⟩, ts1)
           | none => some (Except.ok ⟨token.position, Value.vstr token.value⟩, ts1)) := rfl

theorem parseInner_sequence (n : Nat) (nm : String) (cs : List PNode)
    (tr : Transformer) (ig : List String) (start : Position) (ts : TokenStream) :
    Parser.parseInner (n + 1) (PNode.sequence nm cs tr ig) start ts =
      (match Parser.parseSeq n cs ts [] with
       | none => none
       | some (Except.error e, ts1) => some (Except.error e, ts1)
       | some (Except.ok rs, ts1) =>
         some (Except.ok ⟨((rs.head?).map (fun r => r.pos)).getD start,
           Value.vlist (rs.map (fun r => Value.vresult r.pos r.val))⟩, ts1)) := rfl

theorem parseInner_choice (n : Nat) (nm : String) (cs : List PNode) (tag : Bool)
    (tr : Transformer) (ig : List String) (start : Position) (ts : TokenStream) :
    Parser.parseInner (n + 1) (PNode.choice nm cs tag tr ig) start ts =
      Parser.parseChoice n cs tag
        ⟨start, "Expected one of [" ++
          String.intercalate ", " (cs.map PNode.name) ++ "]"⟩ ts := rfl

theorem parseInner_quantified (n : Nat) (nm : String) (c : PNode) (mn : Nat)
    (mx : Option Nat) (tr : Transformer) (ig : List String) (start : Position)
    (ts : TokenStream) :
    Parser.parseInner (n + 1) (PNode.quantified nm c mn mx tr ig) start ts =
      (match Parser.parseQuant n c mn mx [] ts with
       | none => none
       | some (Except.error e, ts1) => some (Except.error e, ts1)
       | some (Except.ok rs, ts1) =>
         some (Except.ok ⟨((rs.head?).map (fun r => r.pos)).getD start,
           Value.vlist (rs.map (fun r => Value.vresult r.pos r.val))⟩, ts1)) := rfl

theorem parseInner_separated (n : Nat) (nm : String) (v sep : PNode)
    (tr : Transformer) (ig : List String) (start : Position) (ts : TokenStream) :
    Parser.parseInner (n + 1) (PNode.separated nm v sep tr ig) start ts =
      (match Parser.parse n (Separated.innerParser nm v sep ig) ts with
       | none => none
       | some (Except.ok r, ts1) => some (Except.ok r, ts1)
       | some (Except.error _, ts1) =>
         some (Except.ok ⟨start, Value.vlist []⟩, ts1)) := rfl

theorem parseQuant_succ (n : Nat) (c : PNode) (mn : Nat) (mx : Option Nat)
    (acc : List PResult) (ts : TokenStream) :
    Parser.parseQuant (n + 1) c mn mx acc ts =
      (if (match mx with | none => true | some m => acc.length < m : Bool) then
        match Parser.parse n c ts with
        | none => none
        | some (Except.ok r, ts1) =>
          Parser.parseQuant n c mn mx (acc ++ [r]) ts1
        | some (Except.error e, ts1) =>
          if acc.length < mn then
            match TokenStream.GetPosition n ts1 with
            | none => none
            | some (pos, ts2) =>
              some (Except.error (PError.Combine
                (PError.Expectation
                  ("at least " ++ toString mn ++ " '" ++ c.name ++ "'")
                  ("only " ++ toString acc.length) pos) e), ts2)
          else some (Except.ok acc, ts1)
      else some (Except.ok acc, ts)) := rfl

/-- The token cache only ever grows, across every combinator: joint
monotonicity for the whole mutually recursive parse family. -/
theorem parse_mono : ∀ n : Nat,
    (∀ node ts out, Parser.parse n node ts = some out →
      ts.tokens.length ≤ out.2.tokens.length) ∧
    (∀ node start ts out, Parser.parseInner n node start ts = some out →
      ts.tokens.length ≤ out.2.tokens.length) ∧
    (∀ cs ts acc out, Parser.parseSeq n cs ts acc = some out →
      ts.tokens.length ≤ out.2.tokens.length) ∧
    (∀ cs tag fe ts out, Parser.parseChoice n cs tag fe ts = some out →
      ts.tokens.length ≤ out.2.tokens.length) ∧
    (∀ c mn mx acc ts out, Parser.parseQuant n c mn mx acc ts = some out →
      ts.tokens.length ≤ out.2.tokens.length) := by
  intro n
  induction n with
  | zero =>
    refine ⟨?_, ?_, ?_, ?_, ?_⟩
    · intro _ _ _ h
      cases h
    · intro _ _ _ _ h
      cases h
    · intro _ _ _ _ h
      cases h
    · intro _ _ _ _ _ h
      cases h
    · intro _ _ _ _ _ _ h
      cases h
  | succ k ih =>
    obtain ⟨ihP, ihI, ihS, ihC, ihQ⟩ := ih
    refine ⟨?_, ?_, ?_, ?_, ?_⟩
    · intro node ts out h
      rw [Parser.parse] at h
      simp only [] at h
      split at h
      · cases h
      · rename_i ts1 hskip
        have h1 := skipIgnores_spec k node.ignores ts ts1 hskip
        split at h
        · cases h
        · rename_i startPos ts2 hgp
          have h2 := tsGetPosition_spec k ts1 startPos ts2 hgp
          split at h
          · cases h
          · rename_i r ts3 hpi
            have h3 : ts2.tokens.length ≤ ts3.tokens.length := ihI _ _ _ _ hpi
            injection h with h'
            subst h'
            simp only []
            omega
          · rename_i e ts3 hpi
            have h3 : ts2.tokens.length ≤ ts3.tokens.length := ihI _ _ _ _ hpi
            split at h
            · cases h
            · rename_i pos ts5 hgp2
              have h4 := tsGetPosition_spec k (ts3.SetOffset (ts.offset : Int))
                pos ts5 hgp2
              have h5 : (ts3.SetOffset (ts.offset : Int)).tokens.length =
                  ts3.tokens.length := by rw [tsSetOffset_tokens]
              injection h with h'
              subst h'
              simp only []
              omega
    · intro node start ts out h
      cases node with
      | terminal name pid v tr ig =>
        rw [parseInner_terminal] at h
        split at h
        · cases h
        · rename_i token ts1 hget
          have h1 := tsGet_spec k ts token ts1 hget
          split at h
          · injection h with h'
            subst h'
            simp only []
            omega
          · split at h
            · split at h
              · injection h with h'
                subst h'
                simp only []
                omega
              · injection h with h'
                subst h'
                simp only []
                omega
            · injection h with h'
              subst h'
              simp only []
              omega
      | sequence name cs tr ig =>
        rw [parseInner_sequence] at h
        split at h
        · cases h
        · rename_i e ts1 hseq
          have h1 : ts.tokens.length ≤ ts1.tokens.length := ihS _ _ _ _ hseq
          injection h with h'
          subst h'
          simpa using h1
        · rename_i rs ts1 hseq
          have h1 : ts.tokens.length ≤ ts1.tokens.length := ihS _ _ _ _ hseq
          injection h with h'
          subst h'
          simpa using h1
      | choice name cs tag tr ig =>
        rw [parseInner_choice] at h
        exact ihC _ _ _ _ out h
      | quantified name c mn mx tr ig =>
        rw [parseInner_quantified] at h
        split at h
        · cases h
        · rename_i e ts1 hq
          have h1 : ts.tokens.length ≤ ts1.tokens.length := ihQ _ _ _ _ _ _ hq
          injection h with h'
          subst h'
          simpa using h1
        · rename_i rs ts1 hq
          have h1 : ts.tokens.length ≤ ts1.tokens.length := ihQ _ _ _ _ _ _ hq
          injection h with h'
          subst h'
          simpa using h1
      | separated name v sep tr ig =>
        rw [parseInner_separated] at h
        split at h
        · cases h
        · rename_i r ts1 hp
          have h1 : ts.tokens.length ≤ ts1.tokens.length := ihP _ _ _ hp
          injection h with h'
          subst h'
          simpa using h1
        · rename_i e ts1 hp
          have h1 : ts.tokens.length ≤ ts1.tokens.length := ihP _ _ _ hp
          injection h with h'
          subst h'
          simpa using h1
    · intro cs ts acc out h
      match cs with
      | [] =>
        rw [Parser.parseSeq] at h
        injection h with h'
        subst h'
        simp
      | c :: rest =>
        rw [Parser.parseSeq] at h
        split at h
        · cases h
        · rename_i e ts1 hp
          have h1 : ts.tokens.length ≤ ts1.tokens.length := ihP _ _ _ hp
          injection h with h'
          subst h'
          simpa using h1
        · rename_i r ts1 hp
          have h1 : ts.tokens.length ≤ ts1.tokens.length := ihP _ _ _ hp
          have h2 : ts1.tokens.length ≤ out.2.tokens.length := ihS _ _ _ _ h
          omega
    · intro cs tag fe ts out h
      match cs with
      | [] =>
        rw [Parser.parseChoice] at h
        injection h with h'
        subst h'
        simp
      | c :: rest =>
        rw [Parser.parseChoice] at h
        split at h
        · cases h
        · rename_i r ts1 hp
          have h1 : ts.tokens.length ≤ ts1.tokens.length := ihP _ _ _ hp
          injection h with h'
          subst h'
          simpa using h1
        · rename_i e ts1 hp
          have h1 : ts.tokens.length ≤ ts1.tokens.length := ihP _ _ _ hp
          have h2 : ts1.tokens.length ≤ out.2.tokens.length := ihC _ _ _ _ _ h
          omega
    · intro c mn mx acc ts out h
      rw [parseQuant_succ] at h
      split at h
      · split at h
        · cases h
        · rename_i r ts1 hp
          have h1 : ts.tokens.length ≤ ts1.tokens.length := ihP _ _ _ hp
          have h2 : ts1.tokens.length ≤ out.2.tokens.length := ihQ _ _ _ _ _ _ h
          omega
        · rename_i e ts1 hp
          have h1 : ts.tokens.length ≤ ts1.tokens.length := ihP _ _ _ hp
          split at h
          · split at h
            · cases h
            · rename_i pos ts2 hgp
              have h2 := tsGetPosition_spec k ts1 pos ts2 hgp
              injection h with h'
              subst h'
              simp only []
              omega
          · injection h with h'
            subst h'
            simpa using h1
      · injection h with h'
        subst h'
        simp

/-- The wrapper-level backtracking property: whenever `Parser.parse`
propagates a `Parser.Error`, the cursor of the returned stream equals
the cursor at entry.  The restore is literal in the code
(`stream.SetOffset(startOffset)`); the proof's work is showing the
clamp in `TokenStream.SetOffset` is inactive, which holds because the
initial `Peek` of the ignore-skipping loop forces the cache to cover
the entry cursor and the cache never shrinks afterwards. -/
theorem parse_error_offset : ∀ (n : Nat) (node : PNode) (ts : TokenStream)
    (e : PError) (ts' : TokenStream),
    Parser.parse n node ts = some (Except.error e, ts') →
    ts'.offset = ts.offset := by
  intro n node ts e ts' h
  cases n with
  | zero => cases h
  | succ k =>
    rw [Parser.parse] at h
    simp only [] at h
    split at h
    · cases h
    · rename_i ts1 hskip
      have h1 := skipIgnores_spec k node.ignores ts ts1 hskip
      split at h
      · cases h
      · rename_i startPos ts2 hgp
        have h2 := tsGetPosition_spec k ts1 startPos ts2 hgp
        split at h
        · cases h
        · rename_i r ts3 hpi
          simp at h
        · rename_i e0 ts3 hpi
          have h3 : ts2.tokens.length ≤ ts3.tokens.length :=
            (parse_mono k).2.1 _ _ _ _ hpi
          split at h
          · cases h
          · rename_i pos ts5 hgp2
            have h4 := tsGetPosition_spec k (ts3.SetOffset (ts.offset : Int))
              pos ts5 hgp2
            injection h with h'
            have hts : ts5 = ts' := congrArg Prod.snd h'
            subst hts
            rw [h4.1]
            show (ts3.SetOffset (ts.offset : Int)).offset = ts.offset
            simp only [TokenStream.SetOffset]
            have hlen : ts.offset + 1 ≤ ts3.tokens.length := by omega
            omega

/-- Claim C1: backtracking purity — for every parser node and every
token-stream state, if `parse` raises a `Parser.Error` then the
token-stream cursor after the failure equals the cursor before the
attempt, however many tokens the failed attempt consumed. -/
theorem claim_C1_backtracking_purity (n : Nat) (node : PNode)
    (ts : TokenStream) (e : PError) (ts' : TokenStream)
    (h : Parser.parse n node ts = some (Except.error e, ts')) :
    ts'.offset = ts.offset :=
  parse_error_offset n node ts e ts' h

/-- Single-step evaluation lemmas: these let concrete parses be
computed by composing the (cheap) stream-level evaluations instead of
normalising the fuel-indexed recursion in one go. -/
theorem parse_eval_ok (n : Nat) (node : PNode) (ts S1 S2 S3 : TokenStream)
    (P1 : Position) (r : PResult)
    (h0 : skipIgnores n node.ignores ts = some S1)
    (h1 : TokenStream.GetPosition n S1 = some (P1, S2))
    (h2 : Parser.parseInner n node P1 S2 = some (Except.ok r, S3)) :
    Parser.parse (n + 1) node ts =
      some (Except.ok ⟨r.pos, applyTransformer node.trans r.val⟩, S3) := by
  rw [Parser.parse]
  simp only [h0, h1, h2]

theorem parse_eval_err (n : Nat) (node : PNode) (ts S1 S2 S3 S4 : TokenStream)
    (P1 pos : Position) (e : PError)
    (h0 : skipIgnores n node.ignores ts = some S1)
    (h1 : TokenStream.GetPosition n S1 = some (P1, S2))
    (h2 : Parser.parseInner n node P1 S2 = some (Except.error e, S3))
    (h3 : TokenStream.GetPosition n (S3.SetOffset (ts.offset : Int)) =
      some (pos, S4)) :
    Parser.parse (n + 1) node ts =
      some (Except.error
        (PError.Combine ⟨pos, "Unable to parse " ++ node.name⟩ e), S4) := by
  rw [Parser.parse]
  simp only [h0, h1, h2, h3]

theorem parseInner_terminal_ok (n : Nat) (nm pid : String) (tr : Transformer)
    (ig : List String) (start : Position) (ts S1 : TokenStream) (tok : Token)
    (h : TokenStream.Get n ts = some (tok, S1)) (hpid : tok.patternID = pid) :
    Parser.parseInner (n + 1) (PNode.terminal nm pid none tr ig) start ts =
      some (Except.ok ⟨tok.position, Value.vstr tok.value⟩, S1) := by
  rw [parseInner_terminal]
  simp only [h, hpid, ne_eq, not_true_eq_false, if_false]

theorem parseInner_terminal_mismatch (n : Nat) (nm pid : String)
    (tr : Transformer) (ig : List String) (start : Position)
    (ts S1 : TokenStream) (tok : Token)
    (h : TokenStream.Get n ts = some (tok, S1))
    (hpid : tok.patternID ≠ pid) :
    Parser.parseInner (n + 1) (PNode.terminal nm pid none tr ig) start ts =
      some (Except.error (PError.Expectation ""
        (tok.patternID ++
          (if tok.value ≠ [] then "(" ++ String.mk tok.value ++ ")" else ""))
        tok.position), S1) := by
  rw [parseInner_terminal]
  simp only [h, hpid, ne_eq, not_false_eq_true, if_true]

theorem parseSeq_cons_ok (n : Nat) (c : PNode) (rest : List PNode)
    (ts S1 : TokenStream) (acc : List PResult) (r : PResult)
    (h : Parser.parse n c ts = some (Except.ok r, S1)) :
    Parser.parseSeq (n + 1) (c :: rest) ts acc =
      Parser.parseSeq n rest S1 (acc ++ [r]) := by
  rw [Parser.parseSeq]
  simp only [h]

theorem parseSeq_cons_err (n : Nat) (c : PNode) (rest : List PNode)
    (ts S1 : TokenStream) (acc : List PResult) (e : PError)
    (h : Parser.parse n c ts = some (Except.error e, S1)) :
    Parser.parseSeq (n + 1) (c :: rest) ts acc =
      some (Except.error e, S1) := by
  rw [Parser.parseSeq]
  simp only [h]

theorem parseSeq_nil (n : Nat) (ts : TokenStream) (acc : List PResult) :
    Parser.parseSeq (n + 1) [] ts acc = some (Except.ok acc, ts) := rfl

theorem parseQuant_none_ok (n : Nat) (c : PNode) (mn : Nat)
    (acc : List PResult) (ts S1 : TokenStream) (r : PResult)
    (h : Parser.parse n c ts = some (Except.ok r, S1)) :
    Parser.parseQuant (n + 1) c mn none acc ts =
      Parser.parseQuant n c mn none (acc ++ [r]) S1 := by
  rw [parseQuant_succ]
  simp only [h, if_true]

theorem parseQuant_none_err_enough (n : Nat) (c : PNode) (mn : Nat)
    (acc : List PResult) (ts S1 : TokenStream) (e : PError)
    (h : Parser.parse n c ts = some (Except.error e, S1))
    (hge : ¬ acc.length < mn) :
    Parser.parseQuant (n + 1) c mn none acc ts =
      some (Except.ok acc, S1) := by
  rw [parseQuant_succ]
  simp only [h, hge, if_false, if_true]

theorem parseQuant_none_err_short (n : Nat) (c : PNode) (mn : Nat)
    (acc : List PResult) (ts S1 S2 : TokenStream) (e : PError) (pos : Position)
    (h : Parser.parse n c ts = some (Except.error e, S1))
    (hlt : acc.length < mn)
    (hgp : TokenStream.GetPosition n S1 = some (pos, S2)) :
    Parser.parseQuant (n + 1) c mn none acc ts =
      some (Except.error (PError.Combine
        (PError.Expectation
          ("at least " ++ toString mn ++ " '" ++ c.name ++ "'")
          ("only " ++ toString acc.length) pos) e), S2) := by
  rw [parseQuant_succ]
  simp only [h, hlt, hgp, if_true]

theorem repsOf_succ_err (n : Nat) (c : PNode) (ts tsf : TokenStream)
    (e : PError) (h : Parser.parse n c ts = some (Except.error e, tsf)) :
    repsOf (n + 1) c ts = some ([], ts, e, tsf, n) := by
  rw [repsOf]
  simp only [h]

theorem repsOf_succ_ok (n : Nat) (c : PNode) (ts ts1 tsk tsf : TokenStream)
    (r : PResult) (rs : List PResult) (e : PError) (k : Nat)
    (h : Parser.parse n c ts = some (Except.ok r, ts1))
    (hrec : repsOf n c ts1 = some (rs, tsk, e, tsf, k)) :
    repsOf (n + 1) c ts = some (r :: rs, tsk, e, tsf, k) := by
  rw [repsOf]
  simp only [h, hrec]

theorem parseInner_sequence_err (n : Nat) (nm : String) (cs : List PNode)
    (tr : Transformer) (ig : List String) (start : Position)
    (ts S1 : TokenStream) (e : PError)
    (h : Parser.parseSeq n cs ts [] = some (Except.error e, S1)) :
    Parser.parseInner (n + 1) (PNode.sequence nm cs tr ig) start ts =
      some (Except.error e, S1) := by
  rw [parseInner_sequence]
  simp only [h]

theorem parseInner_sequence_ok (n : Nat) (nm : String) (cs : List PNode)
    (tr : Transformer) (ig : List String) (start : Position)
    (ts S1 : TokenStream) (rs : List PResult)
    (h : Parser.parseSeq n cs ts [] = some (Except.ok rs, S1)) :
    Parser.parseInner (n + 1) (PNode.sequence nm cs tr ig) start ts =
      some (Except.ok ⟨((rs.head?).map (fun r => r.pos)).getD start,
        Value.vlist (rs.map (fun r => Value.vresult r.pos r.val))⟩, S1) := by
  rw [parseInner_sequence]
  simp only [h]

theorem parseInner_quantified_err (n : Nat) (nm : String) (c : PNode)
    (mn : Nat) (mx : Option Nat) (tr : Transformer) (ig : List String)
    (start : Position) (ts S1 : TokenStream) (e : PError)
    (h : Parser.parseQuant n c mn mx [] ts = some (Except.error e, S1)) :
    Parser.parseInner (n + 1) (PNode.quantified nm c mn mx tr ig) start ts =
      some (Except.error e, S1) := by
  rw [parseInner_quantified]
  simp only [h]

theorem parseInner_quantified_ok (n : Nat) (nm : String) (c : PNode)
    (mn : Nat) (mx : Option Nat) (tr : Transformer) (ig : List String)
    (start : Position) (ts S1 : TokenStream) (rs : List PResult)
    (h : Parser.parseQuant n c mn mx [] ts = some (Except.ok rs, S1)) :
    Parser.parseInner (n + 1) (PNode.quantified nm c mn mx tr ig) start ts =
      some (Except.ok ⟨((rs.head?).map (fun r => r.pos)).getD start,
        Value.vlist (rs.map (fun r => Value.vresult r.pos r.val))⟩, S1) := by
  rw [parseInner_quantified]
  simp only [h]

theorem parseInner_separated_err (n : Nat) (nm : String) (v sep : PNode)
    (tr : Transformer) (ig : List String) (start : Position)
    (ts S1 : TokenStream) (e : PError)
    (h : Parser.parse n (Separated.innerParser nm v sep ig) ts =
      some (Except.error e, S1)) :
    Parser.parseInner (n + 1) (PNode.separated nm v sep tr ig) start ts =
      some (Except.ok ⟨start, Value.vlist []⟩, S1) := by
  rw [parseInner_separated]
  simp only [h]

theorem parseInner_separated_ok (n : Nat) (nm : String) (v sep : PNode)
    (tr : Transformer) (ig : List String) (start : Position)
    (ts S1 : TokenStream) (r : PResult)
    (h : Parser.parse n (Separated.innerParser nm v sep ig) ts =
      some (Except.ok r, S1)) :
    Parser.parseInner (n + 1) (PNode.separated nm v sep tr ig) start ts =
      some (Except.ok r, S1) := by
  rw [parseInner_separated]
  simp only [h]

/-- Projection helpers to name intermediate machine states of concrete
runs (all built from the cheap, non-recursive stream operations). -/
def skipX (n : Nat) (ig : List String) (ts : TokenStream) : TokenStream :=
  match skipIgnores n ig ts with
  | some t => t
  | none => ts

def gposP (n : Nat) (ts : TokenStream) : Position :=
  match TokenStream.GetPosition n ts with
  | some (p, _) => p
  | none => ⟨0, 0⟩

def gposS (n : Nat) (ts : TokenStream) : TokenStream :=
  match TokenStream.GetPosition n ts with
  | some (_, t) => t
  | none => ts

def getTok (n : Nat) (ts : TokenStream) : Token :=
  match TokenStream.Get n ts with
  | some (t, _) => t
  | none => ⟨"", ⟨0, 0⟩, []⟩

def getS (n : Nat) (ts : TokenStream) : TokenStream :=
  match TokenStream.Get n ts with
  | some (_, t) => t
  | none => ts

def termX : PNode := PNode.terminal "x" "CH" none none []

def termY : PNode := PNode.terminal "y" "CH" none none []

def termComma : PNode := PNode.terminal "comma" "C" none none []

def c1FailNode : PNode := PNode.sequence "seq" [termX, termY, termComma] none []

def c1Stream : TokenStream := TokenStream.mk' charLexer (strChars "ab") []

def w1 : TokenStream := skipX 11 [] c1Stream
def pA : Position := gposP 11 w1
def w2 : TokenStream := gposS 11 w1
def w3 : TokenStream := skipX 8 [] w2
def pB : Position := gposP 8 w3
def w4 : TokenStream := gposS 8 w3
def tokX : Token := getTok 7 w4
def w5 : TokenStream := getS 7 w4
def w6 : TokenStream := skipX 7 [] w5
def pC : Position := gposP 7 w6
def w7 : TokenStream := gposS 7 w6
def tokY : Token := getTok 6 w7
def w8 : TokenStream := getS 6 w7
def w9 : TokenStream := skipX 6 [] w8
def pD : Position := gposP 6 w9
def w10 : TokenStream := gposS 6 w9
def tokE : Token := getTok 5 w10
def w11 : TokenStream := getS 5 w10
def pE : Position := gposP 6 (w11.SetOffset (w8.offset : Int))
def w12 : TokenStream := gposS 6 (w11.SetOffset (w8.offset : Int))
def pF : Position := gposP 11 (w12.SetOffset (c1Stream.offset : Int))
def w13 : TokenStream := gposS 11 (w12.SetOffset (c1Stream.offset : Int))

def errC : PError :=
  PError.Combine ⟨pE, "Unable to parse comma"⟩
    (PError.Expectation ""
      (tokE.patternID ++
        (if tokE.value ≠ [] then "(" ++ String.mk tokE.value ++ ")" else ""))
      tokE.position)

def errTop : PError := PError.Combine ⟨pF, "Unable to parse seq"⟩ errC

theorem c1_run : Parser.parse 12 c1FailNode c1Stream =
    some (Except.error errTop, w13) := by
  have hXok : Parser.parse 9 termX w2 =
      some (Except.ok ⟨tokX.position, Value.vstr tokX.value⟩, w5) :=
    parse_eval_ok 8 termX w2 w3 w4 w5 pB ⟨tokX.position, Value.vstr tokX.value⟩
      rfl rfl (parseInner_terminal_ok 7 "x" "CH" none [] pB w4 w5 tokX rfl rfl)
  have hYok : Parser.parse 8 termY w5 =
      some (Except.ok ⟨tokY.position, Value.vstr tokY.value⟩, w8) :=
    parse_eval_ok 7 termY w5 w6 w7 w8 pC ⟨tokY.position, Value.vstr tokY.value⟩
      rfl rfl (parseInner_terminal_ok 6 "y" "CH" none [] pC w7 w8 tokY rfl rfl)
  have hCerr : Parser.parse 7 termComma w8 = some (Except.error errC, w12) :=
    parse_eval_err 6 termComma w8 w9 w10 w11 w12 pD pE _
      rfl rfl
      (parseInner_terminal_mismatch 5 "comma" "C" none [] pD w10 w11 tokE rfl
        (by decide))
      rfl
  have hseq : Parser.parseSeq 10 [termX, termY, termComma] w2 [] =
      some (Except.error errC, w12) := by
    have s1 := parseSeq_cons_ok 9 termX [termY, termComma] w2 w5 []
      ⟨tokX.position, Value.vstr tokX.value⟩ hXok
    have s2 := parseSeq_cons_ok 8 termY [termComma] w5 w8
      [⟨tokX.position, Value.vstr tokX.value⟩]
      ⟨tokY.position, Value.vstr tokY.value⟩ hYok
    have s3 := parseSeq_cons_err 7 termComma [] w8 w12
      [⟨tokX.position, Value.vstr tokX.value⟩,
       ⟨tokY.position, Value.vstr tokY.value⟩] errC hCerr
    exact s1.trans (s2.trans s3)
  have hinner : Parser.parseInner 11 c1FailNode pA w2 =
      some (Except.error errC, w12) :=
    parseInner_sequence_err 10 "seq" [termX, termY, termComma] none [] pA
      w2 w12 errC hseq
  exact parse_eval_err 11 c1FailNode c1Stream w1 w2 w12 w13 pA pF errC
    rfl rfl hinner rfl

/-- Claim C1 witness: a three-element sequence consumes two `CH` tokens
from `"ab"` and then fails on the third; the cursor of the stream the
error leaves behind is restored to the entry cursor 0. -/
theorem claim_C1_witness :
    Parser.parse 12 c1FailNode c1Stream = some (Except.error errTop, w13) ∧
    w13.offset = c1Stream.offset :=
  ⟨c1_run, claim_C1_backtracking_purity 12 c1FailNode c1Stream errTop w13 c1_run⟩

theorem repsOf_succ (m : Nat) (c : PNode) (ts : TokenStream) :
    repsOf (m + 1) c ts =
      (match Parser.parse m c ts with
       | none => none
       | some (Except.error e, tsf) => some ([], ts, e, tsf, m)
       | some (Except.ok r, ts1) =>
         match repsOf m c ts1 with
         | none => none
         | some (rs, tsk, e, tsf, k) => some (r :: rs, tsk, e, tsf, k)) := rfl

theorem parseQuant_none_err_short_nopos (n : Nat) (c : PNode) (mn : Nat)
    (acc : List PResult) (ts S1 : TokenStream) (e : PError)
    (h : Parser.parse n c ts = some (Except.error e, S1))
    (hlt : acc.length < mn)
    (hgp : TokenStream.GetPosition n S1 = none) :
    Parser.parseQuant (n + 1) c mn none acc ts = none := by
  rw [parseQuant_succ]
  simp only [h, hlt, hgp, if_true]

/-- `Quantified`'s loop (unbounded maximum) against the plain
iteration `repsOf` of its sub-parser: with the iteration collecting
`rs` successes before failing with `e`, the loop raises the combined
"at least N" expectation when the count falls short of the minimum,
and otherwise returns the accumulated results with the stream exactly
as the failed attempt left it. -/
theorem quant_of_reps (c : PNode) : ∀ (n : Nat) (ts : TokenStream)
    (rs : List PResult) (tsk : TokenStream) (e : PError) (tsf : TokenStream)
    (k : Nat), repsOf n c ts = some (rs, tsk, e, tsf, k) →
    ∀ (mn : Nat) (acc : List PResult),
      (acc.length + rs.length < mn →
        (∀ pos ts'', TokenStream.GetPosition k tsf = some (pos, ts'') →
          Parser.parseQuant n c mn none acc ts =
            some (Except.error (PError.Combine
              (PError.Expectation
                ("at least " ++ toString mn ++ " '" ++ c.name ++ "'")
                ("only " ++ toString (acc.length + rs.length)) pos) e), ts'')) ∧
        (TokenStream.GetPosition k tsf = none →
          Parser.parseQuant n c mn none acc ts = none)) ∧
      (mn ≤ acc.length + rs.length →
        Parser.parseQuant n c mn none acc ts =
          some (Except.ok (acc ++ rs), tsf)) := by
  intro n
  induction n with
  | zero =>
    intro ts rs tsk e tsf k h
    cases h
  | succ m ih =>
    intro ts rs tsk e tsf k h mn acc
    rw [repsOf_succ] at h
    split at h
    · cases h
    · rename_i e0 tsf0 hp
      simp only [Option.some.injEq, Prod.mk.injEq] at h
      obtain ⟨rfl, rfl, rfl, rfl, rfl⟩ := h
      constructor
      · intro hlt
        constructor
        · intro pos ts'' hgp
          have hh := parseQuant_none_err_short m c mn acc ts _ ts'' _ pos hp
            (by simpa using hlt) hgp
          simpa using hh
        · intro hgp
          exact parseQuant_none_err_short_nopos m c mn acc ts _ _ hp
            (by simpa using hlt) hgp
      · intro hge
        have hh := parseQuant_none_err_enough m c mn acc ts _ _ hp
          (by simp at hge ⊢; omega)
        simpa using hh
    · rename_i r ts1 hp
      split at h
      · cases h
      · rename_i rs0 tsk0 e0 tsf0 k0 hrec
        simp only [Option.some.injEq, Prod.mk.injEq] at h
        obtain ⟨rfl, rfl, rfl, rfl, rfl⟩ := h
        have IH := ih ts1 rs0 _ _ _ _ hrec mn (acc ++ [r])
        have hlen : (acc ++ [r]).length + rs0.length =
            acc.length + (r :: rs0).length := by
          simp
          omega
        have hstep := parseQuant_none_ok m c mn acc ts ts1 r hp
        constructor
        · intro hlt
          constructor
          · intro pos ts'' hgp
            have hh := (IH.1 (by simp at hlt ⊢; omega)).1 pos ts'' hgp
            rw [hstep, hh, hlen]
          · intro hgp
            have hh := (IH.1 (by simp at hlt ⊢; omega)).2 hgp
            rw [hstep, hh]
        · intro hge
          have hh := IH.2 (by simp at hge ⊢; omega)
          rw [hstep, hh]
          simp

/-- `repsOf` leaves the failed attempt's stream at the cursor of the
stream after the last success (the sub-parser's own restore). -/
theorem reps_offset (c : PNode) : ∀ (n : Nat) (ts : TokenStream)
    (rs : List PResult) (tsk : TokenStream) (e : PError) (tsf : TokenStream)
    (k : Nat), repsOf n c ts = some (rs, tsk, e, tsf, k) →
    tsf.offset = tsk.offset := by
  intro n
  induction n with
  | zero =>
    intro ts rs tsk e tsf k h
    cases h
  | succ m ih =>
    intro ts rs tsk e tsf k h
    rw [repsOf_succ] at h
    split at h
    · cases h
    · rename_i e0 tsf0 hp
      simp only [Option.some.injEq, Prod.mk.injEq] at h
      obtain ⟨rfl, rfl, rfl, rfl, rfl⟩ := h
      exact parse_error_offset m c ts _ _ hp
    · rename_i r ts1 hp
      split at h
      · cases h
      · rename_i rs0 tsk0 e0 tsf0 k0 hrec
        simp only [Option.some.injEq, Prod.mk.injEq] at h
        obtain ⟨rfl, rfl, rfl, rfl, rfl⟩ := h
        exact ih ts1 rs0 _ _ _ _ hrec

/-- Claim C7: for a `Quantified` node with minimum `N` (no maximum),
if the sub-parser's iteration yields `rs` successes and then fails with
`e`: when fewer than `N` repetitions succeeded, `_parse` raises the
error combining its own "at least N" expectation (positioned at the
post-failure cursor) with the last sub-failure; when at least `N`
succeeded, it returns the accumulated results and the stream sits where
the last success left it — the failed final attempt's tokens are not
consumed (its cursor was restored by the sub-parser's own contract). -/
theorem claim_C7_quantified_minimum (n : Nat) (nm : String) (c : PNode)
    (mn : Nat) (tr : Transformer) (ig : List String) (start : Position)
    (ts : TokenStream) (rs : List PResult) (tsk : TokenStream) (e : PError)
    (tsf : TokenStream) (k : Nat)
    (hreps : repsOf n c ts = some (rs, tsk, e, tsf, k)) :
    (∀ pos ts'', rs.length < mn →
      TokenStream.GetPosition k tsf = some (pos, ts'') →
      Parser.parseInner (n + 1) (PNode.quantified nm c mn none tr ig) start ts =
        some (Except.error (PError.Combine
          (PError.Expectation
            ("at least " ++ toString mn ++ " '" ++ c.name ++ "'")
            ("only " ++ toString rs.length) pos) e), ts'')) ∧
    (mn ≤ rs.length →
      Parser.parseInner (n + 1) (PNode.quantified nm c mn none tr ig) start ts =
        some (Except.ok ⟨((rs.head?).map (fun r => r.pos)).getD start,
          Value.vlist (rs.map (fun r => Value.vresult r.pos r.val))⟩, tsf) ∧
      tsf.offset = tsk.offset) := by
  have hq := quant_of_reps c n ts rs tsk e tsf k hreps mn []
  constructor
  · intro pos ts'' hlt hgp
    have hh := (hq.1 (by simpa using hlt)).1 pos ts'' hgp
    have hw := parseInner_quantified_err n nm c mn none tr ig start ts ts'' _ hh
    simpa using hw
  · intro hge
    have hh := hq.2 (by simpa using hge)
    refine ⟨?_, reps_offset c n ts rs tsk e tsf k hreps⟩
    have hw := parseInner_quantified_ok n nm c mn none tr ig start ts tsf
      ([] ++ rs) hh
    simpa using hw

def itemNode : PNode := PNode.terminal "item" "CH" none none []

def quantStream : TokenStream := TokenStream.mk' charLexer (strChars "a") []

def qv1 : TokenStream := skipX 8 [] quantStream
def qp1 : Position := gposP 8 qv1
def qv2 : TokenStream := gposS 8 qv1
def qtokA : Token := getTok 7 qv2
def qv3 : TokenStream := getS 7 qv2
def qv4 : TokenStream := skipX 7 [] qv3
def qp2 : Position := gposP 7 qv4
def qv5 : TokenStream := gposS 7 qv4
def qtokE : Token := getTok 6 qv5
def qv6 : TokenStream := getS 6 qv5
def qp3 : Position := gposP 7 (qv6.SetOffset (qv3.offset : Int))
def qv7 : TokenStream := gposS 7 (qv6.SetOffset (qv3.offset : Int))
def qp4 : Position := gposP 8 qv7
def qv8 : TokenStream := gposS 8 qv7

def qErr : PError :=
  PError.Combine ⟨qp3, "Unable to parse item"⟩
    (PError.Expectation ""
      (qtokE.patternID ++
        (if qtokE.value ≠ [] then "(" ++ String.mk qtokE.value ++ ")" else ""))
      qtokE.position)

/-- Claim C7 witness: `Quantified(minimum = 2)` over a single-token
input collects one repetition, fails the second, and raises the
combined "at least 2 ... only 1" error. -/
theorem claim_C7_witness :
    repsOf 10 itemNode quantStream =
      some ([⟨qtokA.position, Value.vstr qtokA.value⟩], qv3, qErr, qv7, 8) ∧
    Parser.parseInner 11 (PNode.quantified "many" itemNode 2 none none [])
        ⟨1, 1⟩ quantStream =
      some (Except.error (PError.Combine
        (PError.Expectation
          ("at least " ++ toString 2 ++ " '" ++ itemNode.name ++ "'")
          ("only " ++ toString
            ([(⟨qtokA.position, Value.vstr qtokA.value⟩ : PResult)]).length)
          qp4) qErr), qv8) := by
  have hok : Parser.parse 9 itemNode quantStream =
      some (Except.ok ⟨qtokA.position, Value.vstr qtokA.value⟩, qv3) :=
    parse_eval_ok 8 itemNode quantStream qv1 qv2 qv3 qp1
      ⟨qtokA.position, Value.vstr qtokA.value⟩ rfl rfl
      (parseInner_terminal_ok 7 "item" "CH" none [] qp1 qv2 qv3 qtokA rfl rfl)
  have herr : Parser.parse 8 itemNode qv3 = some (Except.error qErr, qv7) :=
    parse_eval_err 7 itemNode qv3 qv4 qv5 qv6 qv7 qp2 qp3 _ rfl rfl
      (parseInner_terminal_mismatch 6 "item" "CH" none [] qp2 qv5 qv6 qtokE
        rfl (by decide)) rfl
  have hreps : repsOf 10 itemNode quantStream =
      some ([⟨qtokA.position, Value.vstr qtokA.value⟩], qv3, qErr, qv7, 8) :=
    repsOf_succ_ok 9 itemNode quantStream qv3 qv3 qv7
      ⟨qtokA.position, Value.vstr qtokA.value⟩ [] qErr 8 hok
      (repsOf_succ_err 8 itemNode qv3 qv7 qErr herr)
  exact ⟨hreps, (claim_C7_quantified_minimum 10 "many" itemNode 2 none []
    ⟨1, 1⟩ quantStream _ _ _ _ _ hreps).1 qp4 qv8 (by simp) rfl⟩

/- Concrete `Separated` machinery: a two-pattern lexer (`"A"` for `'a'`,
`"C"` for `','`), a value terminal, a comma terminal, and the composed
appendage/tail nodes that `Separated.__init__` builds. -/

def matchComma : RegexM := fun s =>
  match s with
  | ',' :: _ => some [',']
  | _ => none

def sepLexer : Lexer :=
  ⟨none, none, [⟨"A", matchSingleA, none⟩, ⟨"C", matchComma, none⟩]⟩

def valNode : PNode := PNode.terminal "val" "A" none none []

def commaNode : PNode := PNode.terminal "comma" "C" none none []

def appN : PNode :=
  PNode.sequence "vals" [commaNode, valNode] (some sepAppendageTrans) []

def tailN : PNode :=
  PNode.quantified "vals" appN 0 none (some sepTailTrans) []

def sepStream : TokenStream := TokenStream.mk' sepLexer (strChars "a,a") []

/- Intermediate machine states of the successful run on `"a,a"`. -/
def d1 : TokenStream := skipX 19 [] sepStream
def dp1 : Position := gposP 19 d1
def d2 : TokenStream := gposS 19 d1
def d3 : TokenStream := skipX 16 [] d2
def dp2 : Position := gposP 16 d3
def d4 : TokenStream := gposS 16 d3
def dtokV1 : Token := getTok 15 d4
def d5 : TokenStream := getS 15 d4
def d6 : TokenStream := skipX 15 [] d5
def dp3 : Position := gposP 15 d6
def d7 : TokenStream := gposS 15 d6
def d8 : TokenStream := skipX 12 [] d7
def dp4 : Position := gposP 12 d8
def d9 : TokenStream := gposS 12 d8
def d10 : TokenStream := skipX 9 [] d9
def dp5 : Position := gposP 9 d10
def d11 : TokenStream := gposS 9 d10
def dtokC : Token := getTok 8 d11
def d12 : TokenStream := getS 8 d11
def d13 : TokenStream := skipX 8 [] d12
def dp6 : Position := gposP 8 d13
def d14 : TokenStream := gposS 8 d13
def dtokV2 : Token := getTok 7 d14
def d15 : TokenStream := getS 7 d14
def d16 : TokenStream := skipX 11 [] d15
def dp7 : Position := gposP 11 d16
def d17 : TokenStream := gposS 11 d16
def d18 : TokenStream := skipX 8 [] d17
def dp8 : Position := gposP 8 d18
def d19 : TokenStream := gposS 8 d18
def dtokE : Token := getTok 7 d19
def d20 : TokenStream := getS 7 d19
def dp9 : Position := gposP 8 (d20.SetOffset (d17.offset : Int))
def d21 : TokenStream := gposS 8 (d20.SetOffset (d17.offset : Int))
def dp10 : Position := gposP 11 (d21.SetOffset (d15.offset : Int))
def d22 : TokenStream := gposS 11 (d21.SetOffset (d15.offset : Int))

def dErrC : PError :=
  PError.Combine ⟨dp9, "Unable to parse comma"⟩
    (PError.Expectation ""
      (dtokE.patternID ++
        (if dtokE.value ≠ [] then "(" ++ String.mk dtokE.value ++ ")" else ""))
      dtokE.position)

def dErrApp : PError := PError.Combine ⟨dp10, "Unable to parse vals"⟩ dErrC

def dRv : PResult := ⟨dtokV1.position, Value.vstr dtokV1.value⟩
def dRc : PResult := ⟨dtokC.position, Value.vstr dtokC.value⟩
def dRv2 : PResult := ⟨dtokV2.position, Value.vstr dtokV2.value⟩
def dRa : PResult :=
  ⟨dtokC.position, Value.vresult dtokV2.position (Value.vstr dtokV2.value)⟩
def dRt : PResult :=
  ⟨dtokC.position,
    Value.vlist [Value.vresult dtokV2.position (Value.vstr dtokV2.value)]⟩

/- Intermediate machine states of the failing run on `","` (the value
terminal fails immediately, so zero repetitions are possible). -/
def commaStream : TokenStream := TokenStream.mk' sepLexer (strChars ",") []
def u1 : TokenStream := skipX 19 [] commaStream
def cp1 : Position := gposP 19 u1
def u2 : TokenStream := gposS 19 u1
def u3 : TokenStream := skipX 16 [] u2
def cp2 : Position := gposP 16 u3
def u4 : TokenStream := gposS 16 u3
def ctokC : Token := getTok 15 u4
def u4g : TokenStream := getS 15 u4
def cp3 : Position := gposP 16 (u4g.SetOffset (u2.offset : Int))
def u5 : TokenStream := gposS 16 (u4g.SetOffset (u2.offset : Int))
def cp4 : Position := gposP 19 (u5.SetOffset (commaStream.offset : Int))
def u6 : TokenStream := gposS 19 (u5.SetOffset (commaStream.offset : Int))

def cErrV : PError :=
  PError.Combine ⟨cp3, "Unable to parse val"⟩
    (PError.Expectation ""
      (ctokC.patternID ++
        (if ctokC.value ≠ [] then "(" ++ String.mk ctokC.value ++ ")" else ""))
      ctokC.position)

def cErrTop : PError := PError.Combine ⟨cp4, "Unable to parse vals"⟩ cErrV

/-- Claim C8: a `Separated` node never fails — whenever its composed
inner parser (value, then zero-or-more (separator, value) pairs) raises
an error, `_parse` catches it and succeeds with an empty list, and the
stream cursor is back where the attempt began (the inner parser's error
path restored it).  And when values are present it returns exactly the
list of values, separators discarded: parsing `"a,a"` with a value
terminal and a `","` separator yields the two `"a"` values only. -/
theorem claim_C8_separated_empty :
    (∀ (n : Nat) (nm : String) (v sep : PNode) (tr : Transformer)
      (ig : List String) (start : Position) (ts ts' : TokenStream)
      (e : PError),
      Parser.parse n (Separated.innerParser nm v sep ig) ts =
        some (Except.error e, ts') →
      Parser.parseInner (n + 1) (PNode.separated nm v sep tr ig) start ts =
        some (Except.ok ⟨start, Value.vlist []⟩, ts') ∧
      ts'.offset = ts.offset) ∧
    (∃ S : TokenStream,
      Parser.parseInner 21 (PNode.separated "vals" valNode commaNode none [])
          ⟨1, 1⟩ sepStream =
        some (Except.ok ⟨⟨1, 1⟩, Value.vlist
          [Value.vresult ⟨1, 1⟩ (Value.vstr (strChars "a")),
           Value.vresult ⟨1, 3⟩ (Value.vstr (strChars "a"))]⟩, S)) := by
  constructor
  · intro n nm v sep tr ig start ts ts' e h
    exact ⟨parseInner_separated_err n nm v sep tr ig start ts ts' e h,
      parse_error_offset n _ ts e ts' h⟩
  · have hv : Parser.parse 17 valNode d2 = some (Except.ok dRv, d5) :=
      parse_eval_ok 16 valNode d2 d3 d4 d5 dp2 dRv rfl rfl
        (parseInner_terminal_ok 15 "val" "A" none [] dp2 d4 d5 dtokV1 rfl rfl)
    have hc : Parser.parse 10 commaNode d9 = some (Except.ok dRc, d12) :=
      parse_eval_ok 9 commaNode d9 d10 d11 d12 dp5 dRc rfl rfl
        (parseInner_terminal_ok 8 "comma" "C" none [] dp5 d11 d12 dtokC rfl rfl)
    have hv2 : Parser.parse 9 valNode d12 = some (Except.ok dRv2, d15) :=
      parse_eval_ok 8 valNode d12 d13 d14 d15 dp6 dRv2 rfl rfl
        (parseInner_terminal_ok 7 "val" "A" none [] dp6 d14 d15 dtokV2 rfl rfl)
    have hseq2 : Parser.parseSeq 11 [commaNode, valNode] d9 [] =
        some (Except.ok [dRc, dRv2], d15) :=
      (parseSeq_cons_ok 10 commaNode [valNode] d9 d12 [] dRc hc).trans
        ((parseSeq_cons_ok 9 valNode [] d12 d15 ([] ++ [dRc]) dRv2 hv2).trans
          (parseSeq_nil 8 d15 (([] ++ [dRc]) ++ [dRv2])))
    have hA : Parser.parse 13 appN d7 = some (Except.ok dRa, d15) :=
      parse_eval_ok 12 appN d7 d8 d9 d15 dp4 _ rfl rfl
        (parseInner_sequence_ok 11 "vals" [commaNode, valNode]
          (some sepAppendageTrans) [] dp4 d9 d15 [dRc, dRv2] hseq2)
    have herrC : Parser.parse 9 commaNode d17 =
        some (Except.error dErrC, d21) :=
      parse_eval_err 8 commaNode d17 d18 d19 d20 d21 dp8 dp9 _ rfl rfl
        (parseInner_terminal_mismatch 7 "comma" "C" none [] dp8 d19 d20 dtokE
          rfl (by decide)) rfl
    have hErrApp : Parser.parse 12 appN d15 =
        some (Except.error dErrApp, d22) :=
      parse_eval_err 11 appN d15 d16 d17 d21 d22 dp7 dp10 dErrC rfl rfl
        (parseInner_sequence_err 10 "vals" [commaNode, valNode]
          (some sepAppendageTrans) [] dp7 d17 d21 dErrC
          (parseSeq_cons_err 9 commaNode [valNode] d17 d21 [] dErrC herrC)) rfl
    have hq0 : Parser.parseQuant 14 appN 0 none [] d7 =
        some (Except.ok [dRa], d22) :=
      (parseQuant_none_ok 13 appN 0 [] d7 d15 dRa hA).trans
        (parseQuant_none_err_enough 12 appN 0 ([] ++ [dRa]) d15 d22 dErrApp
          hErrApp (by simp))
    have ht : Parser.parse 16 tailN d5 = some (Except.ok dRt, d22) :=
      parse_eval_ok 15 tailN d5 d6 d7 d22 dp3 _ rfl rfl
        (parseInner_quantified_ok 14 "vals" appN 0 none (some sepTailTrans)
          [] dp3 d7 d22 [dRa] hq0)
    have hseqTop : Parser.parseSeq 18 [valNode, tailN] d2 [] =
        some (Except.ok [dRv, dRt], d22) :=
      (parseSeq_cons_ok 17 valNode [tailN] d2 d5 [] dRv hv).trans
        ((parseSeq_cons_ok 16 tailN [] d5 d22 ([] ++ [dRv]) dRt ht).trans
          (parseSeq_nil 15 d22 (([] ++ [dRv]) ++ [dRt])))
    have hTop : Parser.parse 20 (Separated.innerParser "vals" valNode
        commaNode []) sepStream =
        some (Except.ok ⟨dtokV1.position, Value.vlist
          [Value.vresult dtokV1.position (Value.vstr dtokV1.value),
           Value.vresult dtokV2.position (Value.vstr dtokV2.value)]⟩, d22) :=
      parse_eval_ok 19 (Separated.innerParser "vals" valNode commaNode [])
        sepStream d1 d2 d22 dp1 _ rfl rfl
        (parseInner_sequence_ok 18 "vals" [valNode, tailN] (some sepMainTrans)
          [] dp1 d2 d22 [dRv, dRt] hseqTop)
    exact ⟨d22, parseInner_separated_ok 20 "vals" valNode commaNode none []
      ⟨1, 1⟩ sepStream d22 _ hTop⟩

/-- Claim C8 witness: on input `","` the value terminal fails at once,
zero repetitions are possible, and the `Separated` node succeeds with
the empty list, cursor restored to the starting offset. -/
theorem claim_C8_witness :
    Parser.parseInner 21 (PNode.separated "vals" valNode commaNode none [])
        ⟨1, 1⟩ commaStream =
      some (Except.ok ⟨⟨1, 1⟩, Value.vlist []⟩, u6) ∧
    u6.offset = commaStream.offset := by
  have hVerr : Parser.parse 17 valNode u2 = some (Except.error cErrV, u5) :=
    parse_eval_err 16 valNode u2 u3 u4 u4g u5 cp2 cp3 _ rfl rfl
      (parseInner_terminal_mismatch 15 "val" "A" none [] cp2 u4 u4g ctokC
        rfl (by decide)) rfl
  have h : Parser.parse 20 (Separated.innerParser "vals" valNode commaNode [])
      commaStream = some (Except.error cErrTop, u6) :=
    parse_eval_err 19 (Separated.innerParser "vals" valNode commaNode [])
      commaStream u1 u2 u5 u6 cp1 cp4 cErrV rfl rfl
      (parseInner_sequence_err 18 "vals" [valNode, tailN] (some sepMainTrans)
        [] cp1 u2 u5 cErrV
        (parseSeq_cons_err 17 valNode [tailN] u2 u5 [] cErrV hVerr)) rfl
  exact claim_C8_separated_empty.1 20 "vals" valNode commaNode none []
    ⟨1, 1⟩ commaStream u6 cErrTop h
